import Mathlib

/-!
Verification development for the dtyper library (src/dtyper.py and
src/dtyper/__init__.py): a shallow embedding of its signature rewriting
engine, callable rebinder and dataclass record synthesizer, together with
theorems settling the specification claims.

The embedding models:
  - Python runtime values as an inductive `Value`, including the typer
    descriptor objects `ArgumentInfo` and `OptionInfo` (constructed by
    `typer.Argument(...)` and `typer.Option(...)`), which carry an inner
    `default` attribute, and the `...` (Ellipsis) sentinel;
  - `inspect.Parameter` as `Param` (name, annotation, kind, default, where
    a default of `none` models `inspect.Parameter.empty`);
  - `inspect.Signature` construction and its validation (the CPython
    checks raising ValueError for wrong parameter order, a non-default
    argument following a default argument, or duplicate names);
  - `inspect.Signature.bind` / `BoundArguments.apply_defaults` /
    `BoundArguments.args` / `BoundArguments.kwargs`, following the CPython
    algorithm, restricted to the parameter kinds that occur in typer
    commands (POSITIONAL_ONLY, POSITIONAL_OR_KEYWORD, KEYWORD_ONLY; typer
    commands never declare VAR_POSITIONAL or VAR_KEYWORD parameters);
  - the dtyper functions `_fixed_signature`, `function`, `Typer.command`,
    `dataclass` / `dataclass_maker`, and the behavior of the external
    `dataclasses.make_dataclass` they invoke.
-/

/-- Python exception classes relevant to the error taxonomy of dtyper:
`TypeError` (raised by call binding and by dataclass field processing),
`ValueError` (raised by `inspect.Signature` validation) and
`argparse.ArgumentError` (the only stdlib class named ArgumentError;
never raised by this code). -/
inductive Err
  | typeError (msg : String)
  | valueError (msg : String)
  | argumentError (msg : String)
  deriving DecidableEq, Repr

def Err.isTypeError : Err → Bool
  | .typeError _ => true
  | _ => false

def Err.isValueError : Err → Bool
  | .valueError _ => true
  | _ => false

def Err.isArgumentError : Err → Bool
  | .argumentError _ => true
  | _ => false

/-- Python runtime values, as far as the dtyper code inspects them.
Python tuples are modelled as right-nested pairs: the triple
`(a, b, c)` is `vPair a (vPair b c)`. `argumentInfo` and `optionInfo`
model the descriptor objects returned by `typer.Argument(default, ...)`
and `typer.Option(default, ...)`: both expose the wrapped value through
their `default` attribute, and `models.OptionInfo` is the class the code
tests with `isinstance` to force keyword-only kind. `ellipsis` is the
`...` required-sentinel. -/
inductive Value
  | vNone
  | vBool (b : Bool)
  | vInt (n : Int)
  | vStr (s : String)
  | ellipsis
  | vPair (fst snd : Value)
  | argumentInfo (inner : Value)
  | optionInfo (inner : Value)
  deriving DecidableEq, Repr

/-- The `inspect.Parameter` kinds occurring in typer commands (a typer
command is declared as a plain `def`, so VAR_POSITIONAL and VAR_KEYWORD
never occur there and are not modelled). -/
inductive ParamKind
  | positionalOnly
  | positionalOrKeyword
  | keywordOnly
  deriving DecidableEq, Repr

/-- The CPython ordering of parameter kinds (POSITIONAL_ONLY = 0,
POSITIONAL_OR_KEYWORD = 1, VAR_POSITIONAL = 2, KEYWORD_ONLY = 3,
VAR_KEYWORD = 4); the two unmodelled var kinds occupy ranks 2 and 4. -/
def kindRank : ParamKind → Nat
  | .positionalOnly => 0
  | .positionalOrKeyword => 1
  | .keywordOnly => 3

/-- An `inspect.Parameter`: name, annotation (kept opaque as a string),
kind, and default value, where `none` models `inspect.Parameter.empty`
(no default). -/
structure Param where
  name : String
  annot : String
  kind : ParamKind
  default : Option Value
  deriving DecidableEq, Repr

/-- Python `getattr(v, "default", v)`: the descriptor objects expose their
inner default; every other modelled value has no `default` attribute, so
`getattr` returns the fallback, the value itself. -/
def getattrDefault : Value → Value
  | .argumentInfo inner => inner
  | .optionInfo inner => inner
  | v => v

/-- Whether a value is one of the typer descriptor objects (it exposes an
inner `default` attribute). -/
def isDescriptor : Value → Bool
  | .argumentInfo _ => true
  | .optionInfo _ => true
  | _ => false

/-- Whether a parameter default is a `models.OptionInfo` descriptor (the
`isinstance(p.default, models.OptionInfo)` test in `_fixed_signature`). -/
def isOptionInfo : Option Value → Bool
  | some (.optionInfo _) => true
  | _ => false

/-- The `fix_param` closure inside `_fixed_signature`:

    def fix_param(p):
        if isinstance(p.default, models.OptionInfo):
            kind = p.KEYWORD_ONLY
        else:
            kind = p.kind
        default = getattr(p.default, "default", p.default)
        if default is ...:
            default = inspect.Parameter.empty
        return p.replace(default=default, kind=kind)

`inspect.Parameter.empty` has no `default` attribute, so a parameter with
no default keeps no default. -/
def fix_param (p : Param) : Param :=
  let kind := if isOptionInfo p.default then ParamKind.keywordOnly else p.kind
  let default :=
    match p.default with
    | none => none
    | some v => some (getattrDefault v)
  let default :=
    match default with
    | some Value.ellipsis => none
    | d => d
  { p with kind := kind, default := default }

/-- The validation loop of `inspect.Signature.__init__` (CPython): walks
the parameters tracking the greatest kind seen (`topKind`), whether a
positional parameter with a default has been seen since the kind last
increased (`kindDefaults`), and the names seen so far; raises ValueError
on a kind decrease, on a positional parameter without a default following
one with a default, or on a duplicate name. `checkKindDefaults` is the
per-parameter default-ordering step of that loop. -/
def checkKindDefaults (p : Param) (kd : Bool) : Except Err Bool :=
  if p.kind == ParamKind.keywordOnly then .ok kd
  else
    match p.default with
    | none =>
      if kd then .error (.valueError "non-default argument follows default argument")
      else .ok kd
    | some _ => .ok true

def validateParams : List Param → ParamKind → Bool → List String → Except Err Unit
  | [], _, _, _ => .ok ()
  | p :: rest, topKind, kindDefaults, seen =>
    if kindRank p.kind < kindRank topKind then
      .error (.valueError ("wrong parameter order: " ++ p.name))
    else
      match checkKindDefaults p (if kindRank topKind < kindRank p.kind then false else kindDefaults) with
      | .error e => .error e
      | .ok kd2 =>
        if p.name ∈ seen then
          .error (.valueError ("duplicate parameter name: " ++ p.name))
        else
          validateParams rest p.kind kd2 (p.name :: seen)

/-- `inspect.Signature(parameters)`: validates and returns the parameter
list (as used by `sig.replace(parameters=parameters)` in
`_fixed_signature`). -/
def mkSignature (ps : List Param) : Except Err (List Param) :=
  match validateParams ps ParamKind.positionalOnly false [] with
  | .ok _ => .ok ps
  | .error e => .error e

/-- `_fixed_signature`: maps `fix_param` over the parameters and rebuilds
the signature (which re-runs the validation above). -/
def fixedSignature (ps : List Param) : Except Err (List Param) :=
  mkSignature (ps.map fix_param)

example :
    fix_param ⟨"pid", "int", ParamKind.positionalOrKeyword, some (Value.optionInfo Value.vNone)⟩
      = ⟨"pid", "int", ParamKind.keywordOnly, some Value.vNone⟩ := by decide

example :
    fix_param ⟨"bucket", "str", ParamKind.positionalOrKeyword, some (Value.argumentInfo Value.ellipsis)⟩
      = ⟨"bucket", "str", ParamKind.positionalOrKeyword, none⟩ := by decide

/-- An argument environment: an association list from parameter names to
values (models both a `kwargs` dict and the `BoundArguments.arguments`
ordered mapping; Python dict iteration order is insertion order). -/
abbrev Env := List (String × Value)

/-- First-match lookup in an association list (Python dict access, given
that dict keys are unique). -/
def lookupVal : Env → String → Option Value
  | [], _ => none
  | (k, v) :: rest, n => if k = n then some v else lookupVal rest n

/-- Python `kwargs.pop(name)`: removes the (unique) entry with the given
key, returning its value and the remaining entries in order; `none` when
the key is absent (the KeyError branch). -/
def popKw : Env → String → Option (Value × Env)
  | [], _ => none
  | (k, v) :: rest, n =>
    if k = n then some (v, rest)
    else
      match popKw rest n with
      | none => none
      | some (x, e) => some (x, (k, v) :: e)

/-- The positional phase of the CPython `Signature._bind` loop (for
signatures without var-arg parameters): walks `args` and parameters in
lockstep. A positional value hitting a KEYWORD_ONLY parameter, or
outlasting the parameter list, raises `too many positional arguments`; a
positional value for a parameter whose name is also in `kwargs` (and is
not positional-only) raises `multiple values`. Returns the bound pairs
and the parameters not consumed positionally. -/
def bindPos (params : List Param) (args : List Value) (kwNames : List String) :
    Except Err (Env × List Param) :=
  match args, params with
  | [], rest => .ok ([], rest)
  | _ :: _, [] => .error (.typeError "too many positional arguments")
  | a :: moreArgs, p :: rest =>
    if p.kind = ParamKind.keywordOnly then .error (.typeError "too many positional arguments")
    else if p.name ∈ kwNames ∧ p.kind ≠ ParamKind.positionalOnly then
      .error (.typeError ("multiple values for argument " ++ p.name))
    else
      match bindPos rest moreArgs kwNames with
      | .ok pr => .ok ((p.name, a) :: pr.1, pr.2)
      | .error e => .error e

/-- The keyword phase of CPython `Signature._bind`: for each remaining
parameter in order, pop its name from `kwargs` (raising for a
positional-only parameter passed by keyword, or for a missing parameter
with no default); after the loop, any kwargs left over raise
`unexpected keyword argument` naming the first leftover. CPython raises
the missing-required error for the first such parameter already while
exhausting positional arguments, with the same message this phase would
produce, so folding it into this phase is observationally equal. -/
def bindKw (params : List Param) (kwargs : Env) : Except Err Env :=
  match params with
  | [] =>
    match kwargs with
    | [] => .ok []
    | (k, _) :: _ => .error (.typeError ("got an unexpected keyword argument " ++ k))
  | p :: rest =>
    match popKw kwargs p.name with
    | some (v, kwargs2) =>
      if p.kind == ParamKind.positionalOnly then
        .error (.typeError (p.name ++ " parameter is positional only, but was passed as a keyword"))
      else
        match bindKw rest kwargs2 with
        | .ok env => .ok ((p.name, v) :: env)
        | .error e => .error e
    | none =>
      if p.default.isNone then
        .error (.typeError ("missing a required argument: " ++ p.name))
      else bindKw rest kwargs

/-- `inspect.Signature.bind(*args, **kwargs)`: positional phase followed
by keyword phase; returns the `BoundArguments.arguments` mapping. -/
def sigBind (sig : List Param) (args : List Value) (kwargs : Env) : Except Err Env :=
  match bindPos sig args (kwargs.map Prod.fst) with
  | .error e => .error e
  | .ok (envPos, rest) =>
    match bindKw rest kwargs with
    | .error e => .error e
    | .ok envKw => .ok (envPos ++ envKw)

/-- `BoundArguments.apply_defaults()`: rebuilds the arguments mapping in
signature order, inserting each defaulted parameter that was omitted. -/
def applyDefaults (sig : List Param) (arguments : Env) : Env :=
  sig.filterMap (fun p =>
    match lookupVal arguments p.name with
    | some v => some (p.name, v)
    | none => p.default.map (fun d => (p.name, d)))

/-- The `BoundArguments.args` property: values of the bound parameters in
signature order, stopping at the first KEYWORD_ONLY parameter or the
first parameter missing from the arguments mapping. -/
def boundArgs (sig : List Param) (arguments : Env) : List Value :=
  match sig with
  | [] => []
  | p :: rest =>
    if p.kind == ParamKind.keywordOnly then []
    else
      match lookupVal arguments p.name with
      | none => []
      | some v => v :: boundArgs rest arguments

/-- The `BoundArguments.kwargs` property: the bound parameters from the
point where `args` stopped onward, as name-value pairs (the
`kwargs_started` flag of the CPython implementation). -/
def boundKwargs (sig : List Param) (arguments : Env) (started : Bool) : Env :=
  match sig with
  | [] => []
  | p :: rest =>
    if started || p.kind == ParamKind.keywordOnly then
      match lookupVal arguments p.name with
      | some v => (p.name, v) :: boundKwargs rest arguments true
      | none => boundKwargs rest arguments true
    else
      match lookupVal arguments p.name with
      | some _ => boundKwargs rest arguments false
      | none => boundKwargs rest arguments true

/-- A Python callable: its declared signature and its body, modelled as a
function from the environment of bound parameter values to the returned
value. -/
structure Callable where
  name : String
  sig : List Param
  body : Env → Value

/-- Calling a plain Python function: the interpreter binds the call
arguments against the declared signature with the same algorithm as
`inspect.Signature.bind` (the wording of interpreter-level binding
errors differs slightly from the `inspect` wording; no claim depends on
those messages) and fills omitted defaults from the declaration. -/
def callPy (f : Callable) (args : List Value) (kwargs : Env) : Except Err Value :=
  match sigBind f.sig args kwargs with
  | .error e => .error e
  | .ok bound => .ok (f.body (applyDefaults f.sig bound))

/-- The callable returned by `dtyper.function`: it closes over the
original callable and the corrected signature, publishes the corrected
signature as `__signature__`, and (via `functools.wraps`) carries the
original name. `dtyperDec` models the `_dtyper_dec` attribute, which
`function` itself never sets (only `Typer.command` does). -/
structure Wrapper where
  original : Callable
  sig : List Param
  name : String
  dtyperDec : Option Callable

/-- `dtyper.function`:

    def function(typer_command):
        sig = _fixed_signature(typer_command)
        @wraps(typer_command)
        def wrapped(*args, **kwargs):
            bound = sig.bind(*args, **kwargs)
            bound.apply_defaults()
            return typer_command(*bound.args, **bound.kwargs)
        wrapped.__signature__ = sig
        return wrapped
-/
def dtyperFunction (f : Callable) : Except Err Wrapper :=
  match fixedSignature f.sig with
  | .error e => .error e
  | .ok s => .ok ⟨f, s, f.name, none⟩

/-- Invoking the wrapper returned by `dtyper.function`: bind against the
corrected signature, apply defaults, and forward to the original
callable via `BoundArguments.args` and `BoundArguments.kwargs`. -/
def Wrapper.call (w : Wrapper) (args : List Value) (kwargs : Env) : Except Err Value :=
  match sigBind w.sig args kwargs with
  | .error e => .error e
  | .ok bound =>
    let full := applyDefaults w.sig bound
    callPy w.original (boundArgs w.sig full) (boundKwargs w.sig full false)

/-- `dtyper.Typer.command`: runs the underlying `typer.Typer.command`
decorator (which registers the command and returns the function object
unchanged - external typer behavior), rebinds it with `function`, and
stores the decorated original on the wrapper as `_dtyper_dec`:

    decorated = decorator(f)
    func = function(decorated)
    func._dtyper_dec = decorated
-/
def typerCommand (f : Callable) : Except Err Wrapper :=
  match dtyperFunction f with
  | .error e => .error e
  | .ok w => .ok { w with dtyperDec := some f }

/-- Total lookup used by concrete command bodies below. -/
def lookupD (env : Env) (n : String) : Value :=
  (lookupVal env n).getD Value.vNone

/-- The `get_keys` command of the specification and the test suite:

    def get_keys(
        bucket: str = Argument(..., help=...),
        keys: str = Argument("keys", help=...),
        pid: Optional[int] = Option(None, help=...),
    ):
        return bucket, keys, pid
-/
def getKeysCmd : Callable :=
  { name := "get_keys"
    sig :=
      [⟨"bucket", "str", ParamKind.positionalOrKeyword, some (Value.argumentInfo Value.ellipsis)⟩,
       ⟨"keys", "str", ParamKind.positionalOrKeyword, some (Value.argumentInfo (Value.vStr "keys"))⟩,
       ⟨"pid", "Optional[int]", ParamKind.positionalOrKeyword, some (Value.optionInfo Value.vNone)⟩]
    body := fun env =>
      Value.vPair (lookupD env "bucket") (Value.vPair (lookupD env "keys") (lookupD env "pid")) }

/-- The corrected signature `_fixed_signature` produces for `get_keys`. -/
def getKeysFixedSig : List Param :=
  [⟨"bucket", "str", ParamKind.positionalOrKeyword, none⟩,
   ⟨"keys", "str", ParamKind.positionalOrKeyword, some (Value.vStr "keys")⟩,
   ⟨"pid", "Optional[int]", ParamKind.keywordOnly, some Value.vNone⟩]

/-- The wrapper `dtyper.function(get_keys)` returns. -/
def getKeysWrapper : Wrapper :=
  ⟨getKeysCmd, getKeysFixedSig, "get_keys", none⟩

example : fixedSignature getKeysCmd.sig = .ok getKeysFixedSig := rfl

example : dtyperFunction getKeysCmd = .ok getKeysWrapper := rfl

example :
    Wrapper.call getKeysWrapper [Value.vStr "bukket"] [("pid", Value.vInt 3)]
      = .ok (Value.vPair (Value.vStr "bukket") (Value.vPair (Value.vStr "keys") (Value.vInt 3))) := by
  rfl

/-- A dataclass field description as built by `param_to_field_desc`:
`(p.name, p.annotation)` for a parameter with no default, and
`(p.name, p.annotation, field(default=p.default))` otherwise. -/
structure FieldDesc where
  name : String
  annot : String
  default : Option Value
  deriving DecidableEq, Repr

/-- The `param_to_field_desc` closure of `dtyper.dataclass`. -/
def param_to_field_desc (p : Param) : FieldDesc :=
  ⟨p.name, p.annot, p.default⟩

/-- A value acceptable as the `typer_command` argument of
`dtyper.dataclass`: either a plain callable or a wrapper produced by
`function` / `Typer.command`. -/
inductive DCInput
  | fn (f : Callable)
  | wr (w : Wrapper)

/-- The guard step `getattr(typer_command, "_dtyper_dec", typer_command)`:
a wrapper carrying the `_dtyper_dec` attribute is replaced by the
pre-rebind original it references; everything else passes through. -/
def resolveDec : DCInput → DCInput
  | .fn f => .fn f
  | .wr w =>
    match w.dtyperDec with
    | some f => .fn f
    | none => .wr w

/-- `inspect.signature` on a dataclass input: a wrapper publishes the
corrected signature through `__signature__`, which takes precedence. -/
def sigOfD : DCInput → List Param
  | .fn f => f.sig
  | .wr w => w.sig

/-- The `__name__` of a dataclass input (`functools.wraps` copies the
original name onto a wrapper). -/
def nameOfD : DCInput → String
  | .fn f => f.name
  | .wr w => w.name

/-- What the user applies the decorator returned by `dtyper.dataclass`
to: either a class (opaque identifier; its methods are inherited
normally) or a plain function, which becomes the `__call__` member of the
synthesized type and therefore receives the instance as its first
argument. An instance of the synthesized record is its mapping from
field names to values, so a call body is a function of that mapping. -/
inductive FnOrClass
  | cls (c : String)
  | fn (gname : String) (gbody : Env → Value)

/-- The synthesized record type returned by `make_dataclass`: name,
ordered fields, base classes in order, the `__call__` member installed
in the namespace (if the decorated object was a function), and the
`typer_command` static member installed in the namespace. -/
structure RecordType where
  cls_name : String
  fields : List FieldDesc
  bases : List String
  callBody : Option (String × (Env → Value))
  typer_cmd : DCInput

/-- The arguments `dtyper.dataclass` accumulates before the decorator is
applied (the `kwargs` dict of the source: `fields`, `bases`, `cls_name`,
and the namespace entry `typer_command`). -/
structure DataclassMaker where
  cls_name : String
  fields : List FieldDesc
  bases : List String
  typer_cmd : DCInput

/-- The field-ordering scan of `dataclasses._process_class` (run by the
external `dataclasses.make_dataclass` when the decorator is applied):
once a field with a default has been seen, a field without one raises
TypeError. -/
def checkFields : List FieldDesc → Bool → Except Err Unit
  | [], _ => .ok ()
  | fd :: rest, seenDefault =>
    match fd.default with
    | none =>
      if seenDefault then
        .error (.typeError ("non-default argument " ++ fd.name ++ " follows default argument"))
      else checkFields rest seenDefault
    | some _ => checkFields rest true

/-- The eager part of `dtyper.dataclass` (src/dtyper.py): resolve the
`_dtyper_dec` guard, merge an explicit `base` into `bases`, compute the
corrected signature (which can raise ValueError), derive the field list,
and default the class name; the namespace entry `typer_command` is the
resolved callable. Other `**kwargs` passed through to `make_dataclass`
are not modelled. -/
def dtyperDataclass (tc0 : DCInput) (base : Option String) : Except Err DataclassMaker :=
  let tc := resolveDec tc0
  match fixedSignature (sigOfD tc) with
  | .error e => .error e
  | .ok fs =>
    .ok { cls_name := nameOfD tc
          fields := fs.map param_to_field_desc
          bases := base.toList
          typer_cmd := tc }

/-- The `dataclass_maker` closure: a decorated class is appended to the
base list after any explicitly requested base; a decorated plain
function becomes the namespace `__call__` member and adds no base; then
the external `make_dataclass` runs (including its field-ordering
check). -/
def dataclass_maker (m : DataclassMaker) (foc : FnOrClass) : Except Err RecordType :=
  let (bases, callBody) :=
    match foc with
    | .cls c => (m.bases ++ [c], none)
    | .fn gname gbody => (m.bases, some (gname, gbody))
  match checkFields m.fields false with
  | .error e => .error e
  | .ok _ =>
    .ok { cls_name := m.cls_name, fields := m.fields, bases := bases,
          callBody := callBody, typer_cmd := m.typer_cmd }

/-- Full record synthesis: `dtyper.dataclass(tc, base)(foc)`. -/
def synthRecord (tc : DCInput) (base : Option String) (foc : FnOrClass) :
    Except Err RecordType :=
  match dtyperDataclass tc base with
  | .error e => .error e
  | .ok m => dataclass_maker m foc

/-- The signature of the `__init__` that `make_dataclass` generates: one
positional-or-keyword parameter per field, in order, with the field
defaults. -/
def fieldsToSig (fds : List FieldDesc) : List Param :=
  fds.map (fun fd => ⟨fd.name, fd.annot, ParamKind.positionalOrKeyword, fd.default⟩)

/-- Constructing an instance of a synthesized record: the generated
`__init__` binds like an ordinary Python function of the fields and
assigns each omitted field its default. The result maps each field name
to its value. User-defined lifecycle hooks (`__post_init__`) are outside
the model. -/
def constructRecord (r : RecordType) (args : List Value) (kwargs : Env) : Except Err Env :=
  match sigBind (fieldsToSig r.fields) args kwargs with
  | .error e => .error e
  | .ok bound => .ok (applyDefaults (fieldsToSig r.fields) bound)

/-- Invoking an instance of a synthesized record: Python dispatches
`instance()` to the `__call__` member of the type, passing the instance
as the first argument; `none` when no `__call__` was installed (the
decorated object was a class). -/
def invokeRecord (r : RecordType) (inst : Env) : Option Value :=
  r.callBody.map (fun g => g.2 inst)

/-- The normalized field list of a dataclass input, prior to signature
validation (the fields `dtyper.dataclass` would derive). -/
def normFields (tc : DCInput) : List FieldDesc :=
  ((sigOfD (resolveDec tc)).map fix_param).map param_to_field_desc

/-- A field list places a required field after an optional one: some
field with a default is followed (strictly later) by some field without
one. -/
def hasReqAfterOpt : List FieldDesc → Bool
  | [] => false
  | fd :: rest => (fd.default.isSome && rest.any (fun g => g.default.isNone)) || hasReqAfterOpt rest

/-- A Python function object with its attributes, for stating that
`dtyper.function` never mutates its argument: `declSig` is the parameter
list of the `def` itself, `sigAttr` the `__signature__` attribute if
explicitly set (it takes precedence for introspection), `dtyperDec` the
`_dtyper_dec` attribute (an object reference), and `wrappedRef` the
`__wrapped__` attribute set by `functools.wraps`. -/
structure FnObj where
  name : String
  declSig : List Param
  sigAttr : Option (List Param)
  dtyperDec : Option Nat
  wrappedRef : Option Nat
  deriving DecidableEq, Repr

def defFnObj : FnObj := ⟨"", [], none, none, none⟩

/-- `inspect.signature` on a function object honors `__signature__`. -/
def sigOfObj (o : FnObj) : List Param :=
  o.sigAttr.getD o.declSig

/-- `dtyper.function` acting on a store of function objects (object ids
are indices into the store; allocation appends). It reads the original
at `fid`, computes the corrected signature, and allocates a fresh
wrapper object: `functools.wraps` copies the name and the instance
dict (hence `_dtyper_dec`, when present) onto the new object and sets
its `__wrapped__`, and `wrapped.__signature__ = sig` is a write to the
new object. The inner closure has a `(*args, **kwargs)` parameter list
of its own, never consulted because `__signature__` is always set;
it is recorded as `[]`. -/
def functionS (store : List FnObj) (fid : Nat) : Except Err (List FnObj × Nat) :=
  let f := store.getD fid defFnObj
  match fixedSignature (sigOfObj f) with
  | .error e => .error e
  | .ok s =>
    let w : FnObj :=
      { name := f.name, declSig := [], sigAttr := some s,
        dtyperDec := f.dtyperDec, wrappedRef := some fid }
    .ok (store ++ [w], store.length)

/-- The record type synthesized from `get_keys` with a plain function as
call body, as in the `c_function` test. -/
def getKeysFields : List FieldDesc :=
  [⟨"bucket", "str", none⟩,
   ⟨"keys", "str", some (Value.vStr "keys")⟩,
   ⟨"pid", "Optional[int]", some Value.vNone⟩]

example :
    dtyperDataclass (DCInput.fn getKeysCmd) none
      = .ok { cls_name := "get_keys", fields := getKeysFields, bases := [],
              typer_cmd := DCInput.fn getKeysCmd } := rfl

/-- The command of the `less_simple_command` test, whose fourth parameter
is a required Option after defaulted parameters:

    def less_simple_command(
        bucket: str = Argument(...),
        keys: str = Argument("keys"),
        pid: Optional[int] = Option(None),
        pod: Optional[int] = Option(...),
    ):
        return bucket, keys, pid, pod
-/
def lessSimpleCmd : Callable :=
  { name := "less_simple_command"
    sig :=
      [⟨"bucket", "str", ParamKind.positionalOrKeyword, some (Value.argumentInfo Value.ellipsis)⟩,
       ⟨"keys", "str", ParamKind.positionalOrKeyword, some (Value.argumentInfo (Value.vStr "keys"))⟩,
       ⟨"pid", "Optional[int]", ParamKind.positionalOrKeyword, some (Value.optionInfo Value.vNone)⟩,
       ⟨"pod", "Optional[int]", ParamKind.positionalOrKeyword, some (Value.optionInfo Value.ellipsis)⟩]
    body := fun env =>
      Value.vPair (lookupD env "bucket")
        (Value.vPair (lookupD env "keys")
          (Value.vPair (lookupD env "pid") (lookupD env "pod"))) }

example :
    synthRecord (DCInput.fn lessSimpleCmd) none (FnOrClass.cls "LSC")
      = .error (.typeError "non-default argument pod follows default argument") := rfl

lemma lookupVal_eq_none_iff (env : Env) (n : String) :
    lookupVal env n = none ↔ n ∉ env.map Prod.fst := by
  induction env with
  | nil => simp [lookupVal]
  | cons e rest ih =>
    obtain ⟨k, v⟩ := e
    by_cases hk : k = n
    · subst hk
      simp [lookupVal]
    · simp only [lookupVal, if_neg hk, List.map_cons, List.mem_cons, ih]
      constructor
      · rintro hn (h1 | h2)
        · exact hk h1.symm
        · exact hn h2
      · intro hn
        exact fun h2 => hn (Or.inr h2)

lemma lookupVal_append_of_not_mem (a b : Env) (n : String) (h : n ∉ a.map Prod.fst) :
    lookupVal (a ++ b) n = lookupVal b n := by
  induction a with
  | nil => rfl
  | cons e rest ih =>
    obtain ⟨k, v⟩ := e
    simp only [List.map_cons, List.mem_cons] at h
    push_neg at h
    simpa [lookupVal, Ne.symm h.1] using ih h.2

lemma lookupVal_append_left (a b : Env) (n : String) (h : (lookupVal a n).isSome) :
    lookupVal (a ++ b) n = lookupVal a n := by
  induction a with
  | nil => simp [lookupVal] at h
  | cons e rest ih =>
    obtain ⟨k, v⟩ := e
    by_cases hk : k = n
    · simp [lookupVal, hk]
    · simp only [lookupVal, if_neg hk] at h ⊢
      exact ih h

lemma isSome_lookupVal_append (a b : Env) (n : String) (h : (lookupVal b n).isSome) :
    (lookupVal (a ++ b) n).isSome := by
  by_cases ha : (lookupVal a n).isSome
  · rw [lookupVal_append_left a b n ha]
    exact ha
  · rw [lookupVal_append_of_not_mem a b n]
    · exact h
    · rw [← lookupVal_eq_none_iff]
      cases hx : lookupVal a n with
      | none => rfl
      | some v => rw [hx] at ha; simp at ha

lemma popKw_shape (kw : Env) (n : String) (v : Value) (kw2 : Env)
    (h : popKw kw n = some (v, kw2)) :
    ∃ A B, kw = A ++ (n, v) :: B ∧ kw2 = A ++ B ∧ n ∉ A.map Prod.fst := by
  induction kw generalizing kw2 with
  | nil => simp [popKw] at h
  | cons e rest ih =>
    obtain ⟨k, w⟩ := e
    by_cases hk : k = n
    · subst hk
      simp only [popKw, if_pos rfl, if_true, Option.some.injEq, Prod.mk.injEq] at h
      exact ⟨[], rest, by simp [h.1, h.2.symm]⟩
    · simp only [popKw, if_neg hk] at h
      cases hrec : popKw rest n with
      | none => rw [hrec] at h; simp at h
      | some pr =>
        obtain ⟨x, e2⟩ := pr
        rw [hrec] at h
        simp only [Option.some.injEq, Prod.mk.injEq] at h
        obtain ⟨hx, he⟩ := h
        subst hx
        obtain ⟨A, B, h1, h2, h3⟩ := ih e2 hrec
        refine ⟨(k, w) :: A, B, by simp [h1], by simp [← he, h2], ?_⟩
        simp only [List.map_cons, List.mem_cons]
        push_neg
        exact ⟨Ne.symm hk, h3⟩

lemma popKw_eq_none_of_not_mem (kw : Env) (n : String) (h : n ∉ kw.map Prod.fst) :
    popKw kw n = none := by
  induction kw with
  | nil => rfl
  | cons e rest ih =>
    obtain ⟨k, v⟩ := e
    simp only [List.map_cons, List.mem_cons] at h
    push_neg at h
    simp [popKw, Ne.symm h.1, ih h.2]

lemma popKw_names_subset (kw : Env) (n : String) (v : Value) (kw2 : Env)
    (h : popKw kw n = some (v, kw2)) :
    ∀ m, m ∈ kw2.map Prod.fst → m ∈ kw.map Prod.fst := by
  obtain ⟨A, B, h1, h2, _⟩ := popKw_shape kw n v kw2 h
  subst h1; subst h2
  intro m hm
  simp only [List.map_append, List.mem_append] at hm ⊢
  rcases hm with hm | hm
  · exact Or.inl hm
  · exact Or.inr (by simp [hm])

lemma checkKindDefaults_err (p : Param) (kd : Bool) (e : Err)
    (h : checkKindDefaults p kd = .error e) : e.isValueError = true := by
  unfold checkKindDefaults at h
  split at h
  · simp at h
  · split at h
    · split at h
      · simp only [Except.error.injEq] at h
        subst h; rfl
      · simp at h
    · simp at h

lemma validateParams_err_isValueError (ps : List Param) :
    ∀ tk kd seen e, validateParams ps tk kd seen = .error e → e.isValueError = true := by
  induction ps with
  | nil => intro tk kd seen e h; simp [validateParams] at h
  | cons p rest ih =>
    intro tk kd seen e h
    simp only [validateParams] at h
    split at h
    · simp only [Except.error.injEq] at h
      subst h; rfl
    · split at h
      · rename_i e2 hstep
        simp only [Except.error.injEq] at h
        subst h
        exact checkKindDefaults_err _ _ _ hstep
      · split at h
        · simp only [Except.error.injEq] at h
          subst h; rfl
        · exact ih _ _ _ _ h

lemma mkSignature_ok_eq (ps s : List Param) (h : mkSignature ps = .ok s) : s = ps := by
  unfold mkSignature at h
  split at h
  · simp only [Except.ok.injEq] at h
    exact h.symm
  · simp at h

lemma mkSignature_ok_valid (ps s : List Param) (h : mkSignature ps = .ok s) :
    ∃ u, validateParams ps ParamKind.positionalOnly false [] = .ok u := by
  unfold mkSignature at h
  split at h
  · rename_i u hu
    exact ⟨u, hu⟩
  · simp at h

lemma mkSignature_err_isValueError (ps : List Param) (e : Err)
    (h : mkSignature ps = .error e) : e.isValueError = true := by
  unfold mkSignature at h
  split at h
  · simp at h
  · rename_i e2 he
    simp only [Except.error.injEq] at h
    subst h
    exact validateParams_err_isValueError ps _ _ _ _ he

lemma validateParams_ok_nodup (ps : List Param) :
    ∀ tk kd seen u, validateParams ps tk kd seen = .ok u →
      (ps.map Param.name).Nodup ∧ ∀ p ∈ ps, p.name ∉ seen := by
  induction ps with
  | nil => intro tk kd seen u _; simp
  | cons p rest ih =>
    intro tk kd seen u h
    simp only [validateParams] at h
    split at h
    · simp at h
    · split at h
      · simp at h
      · split at h
        · simp at h
        · rename_i hseen
          obtain ⟨hnd, hnotin⟩ := ih _ _ _ _ h
          constructor
          · simp only [List.map_cons, List.nodup_cons]
            refine ⟨?_, hnd⟩
            intro hmem
            obtain ⟨q, hq, hqname⟩ := List.mem_map.mp hmem
            exact hnotin q hq (by simp [hqname])
          · intro q hq
            rcases List.mem_cons.mp hq with hq | hq
            · subst hq; exact hseen
            · intro hmem
              exact hnotin q hq (List.mem_cons_of_mem _ hmem)

lemma validateParams_ok_pairwise (ps : List Param) :
    ∀ tk kd seen u, validateParams ps tk kd seen = .ok u →
      List.Pairwise (fun a b => kindRank a.kind ≤ kindRank b.kind) ps ∧
      ∀ p ∈ ps, kindRank tk ≤ kindRank p.kind := by
  induction ps with
  | nil => intro tk kd seen u _; simp
  | cons p rest ih =>
    intro tk kd seen u h
    simp only [validateParams] at h
    split at h
    · simp at h
    · rename_i hord
      push_neg at hord
      split at h
      · simp at h
      · split at h
        · simp at h
        · obtain ⟨hpw, hge⟩ := ih _ _ _ _ h
          constructor
          · exact List.pairwise_cons.mpr ⟨hge, hpw⟩
          · intro q hq
            rcases List.mem_cons.mp hq with hq | hq
            · subst hq; exact hord
            · exact le_trans hord (hge q hq)

lemma bindPos_err_isTypeError (args : List Value) :
    ∀ params kw e, bindPos params args kw = .error e → e.isTypeError = true := by
  induction args with
  | nil => intro params kw e h; simp [bindPos] at h
  | cons a moreArgs ih =>
    intro params kw e h
    cases params with
    | nil =>
      simp only [bindPos, Except.error.injEq] at h
      subst h; rfl
    | cons p rest =>
      simp only [bindPos] at h
      split at h
      · simp only [Except.error.injEq] at h
        subst h; rfl
      · split at h
        · simp only [Except.error.injEq] at h
          subst h; rfl
        · split at h
          · simp at h
          · rename_i e2 hrec
            simp only [Except.error.injEq] at h
            subst h
            exact ih _ _ _ hrec

lemma bindKw_err_isTypeError (params : List Param) :
    ∀ kwargs e, bindKw params kwargs = .error e → e.isTypeError = true := by
  induction params with
  | nil =>
    intro kwargs e h
    cases kwargs with
    | nil => simp [bindKw] at h
    | cons x rest =>
      simp only [bindKw, Except.error.injEq] at h
      subst h; rfl
  | cons p rest ih =>
    intro kwargs e h
    simp only [bindKw] at h
    split at h
    · split at h
      · simp only [Except.error.injEq] at h
        subst h; rfl
      · split at h
        · simp at h
        · rename_i e2 hrec
          simp only [Except.error.injEq] at h
          subst h
          exact ih _ _ hrec
    · split at h
      · simp only [Except.error.injEq] at h
        subst h; rfl
      · exact ih _ _ h

lemma sigBind_err_isTypeError (sig : List Param) (args : List Value) (kwargs : Env) (e : Err)
    (h : sigBind sig args kwargs = .error e) : e.isTypeError = true := by
  unfold sigBind at h
  split at h
  · rename_i e2 hp
    simp only [Except.error.injEq] at h
    subst h
    exact bindPos_err_isTypeError args _ _ _ hp
  · split at h
    · rename_i e2 hk
      simp only [Except.error.injEq] at h
      subst h
      exact bindKw_err_isTypeError _ _ _ hk
    · simp at h

lemma bindPos_shape (args : List Value) :
    ∀ params kw env rem, bindPos params args kw = .ok (env, rem) →
      ∃ P, params = P ++ rem ∧
        List.Forall₂ (fun p (e : String × Value) => e.1 = p.name ∧ p.kind ≠ ParamKind.keywordOnly) P env ∧
        env.length = args.length := by
  induction args with
  | nil =>
    intro params kw env rem h
    simp only [bindPos, Except.ok.injEq, Prod.mk.injEq] at h
    exact ⟨[], by simp [h.1.symm, h.2.symm]⟩
  | cons a moreArgs ih =>
    intro params kw env rem h
    cases params with
    | nil => simp [bindPos] at h
    | cons p rest =>
      simp only [bindPos] at h
      split at h
      · simp at h
      · split at h
        · simp at h
        · rename_i hkind hmult
          split at h
          · rename_i pr hrec
            simp only [Except.ok.injEq, Prod.mk.injEq] at h
            obtain ⟨henv, hrem⟩ := h
            obtain ⟨P0, h1, h2, h3⟩ := ih rest kw pr.1 pr.2 hrec
            subst hrem
            refine ⟨p :: P0, by simp [h1], ?_, by simp [← henv, h3]⟩
            rw [← henv]
            exact List.Forall₂.cons ⟨rfl, hkind⟩ h2
          · simp at h

lemma bindKw_requires (params : List Param) :
    ∀ kwargs env, bindKw params kwargs = .ok env →
      ∀ p ∈ params, p.default = none → (lookupVal env p.name).isSome := by
  induction params with
  | nil => intro kwargs env _ p hp; simp at hp
  | cons q rest ih =>
    intro kwargs env h p hp hreq
    simp only [bindKw] at h
    split at h
    · rename_i v kwargs2 hpop
      split at h
      · simp at h
      · split at h
        · rename_i env0 hrec
          simp only [Except.ok.injEq] at h
          subst h
          rcases List.mem_cons.mp hp with hp | hp
          · subst hp
            simp [lookupVal]
          · simp only [lookupVal]
            split
            · simp
            · exact ih _ _ hrec p hp hreq
        · simp at h
    · split at h
      · simp at h
      · rename_i hdef
        rcases List.mem_cons.mp hp with hp | hp
        · subst hp
          rw [hreq] at hdef
          simp at hdef
        · exact ih _ _ h p hp hreq

lemma bindKw_names_sub (params : List Param) :
    ∀ kwargs env, bindKw params kwargs = .ok env →
      ∀ x ∈ env, x.1 ∈ kwargs.map Prod.fst := by
  induction params with
  | nil =>
    intro kwargs env h x hx
    cases kwargs with
    | nil =>
      simp only [bindKw, Except.ok.injEq] at h
      subst h; simp at hx
    | cons k rest => simp [bindKw] at h
  | cons q rest ih =>
    intro kwargs env h x hx
    simp only [bindKw] at h
    split at h
    · rename_i v kwargs2 hpop
      split at h
      · simp at h
      · split at h
        · rename_i env0 hrec
          simp only [Except.ok.injEq] at h
          subst h
          rcases List.mem_cons.mp hx with hx | hx
          · subst hx
            obtain ⟨A, B, h1, _, _⟩ := popKw_shape _ _ _ _ hpop
            subst h1
            simp
          · exact popKw_names_subset kwargs q.name v kwargs2 hpop x.1 (ih _ _ hrec x hx)
        · simp at h
    · split at h
      · simp at h
      · exact ih _ _ h x hx

lemma forall₂_fst_eq (sig : List Param) (env : Env)
    (h : List.Forall₂ (fun p (e : String × Value) => e.1 = p.name) sig env) :
    env.map Prod.fst = sig.map Param.name := by
  induction h with
  | nil => rfl
  | cons hr _ ih => simp [hr, ih]

lemma applyDefaults_cons_skip (sig : List Param) (k : String) (v : Value) (env : Env)
    (h : ∀ p ∈ sig, p.name ≠ k) :
    applyDefaults sig ((k, v) :: env) = applyDefaults sig env := by
  induction sig with
  | nil => rfl
  | cons p rest ih =>
    have hp : p.name ≠ k := h p (List.mem_cons_self _ _)
    have hlk : lookupVal ((k, v) :: env) p.name = lookupVal env p.name := by
      simp [lookupVal, Ne.symm hp]
    simp only [applyDefaults, List.filterMap_cons] at ih ⊢
    rw [hlk, ih (fun q hq => h q (List.mem_cons_of_mem _ hq))]

lemma applyDefaults_full (sig : List Param) (env : Env)
    (h : List.Forall₂ (fun p (e : String × Value) => e.1 = p.name) sig env)
    (hnd : (sig.map Param.name).Nodup) :
    applyDefaults sig env = env := by
  induction h with
  | nil => rfl
  | cons hr hrest ih =>
    rename_i p e sig2 env2
    simp only [List.map_cons, List.nodup_cons] at hnd
    have hlk : lookupVal (e :: env2) p.name = some e.2 := by
      obtain ⟨k, v⟩ := e
      simp only at hr
      simp [lookupVal, hr]
    have hskip : applyDefaults sig2 (e :: env2) = applyDefaults sig2 env2 := by
      obtain ⟨k, v⟩ := e
      apply applyDefaults_cons_skip
      intro q hq hqk
      simp only at hr
      apply hnd.1
      rw [← hr, ← hqk]
      exact List.mem_map_of_mem Param.name hq
    have hhead : ((p.name, e.2) : String × Value) = e := by
      obtain ⟨k, v⟩ := e
      simp only at hr
      simp [hr]
    have hstep : applyDefaults (p :: sig2) (e :: env2)
        = (p.name, e.2) :: applyDefaults sig2 (e :: env2) := by
      simp only [applyDefaults, List.filterMap_cons, hlk]
    rw [hstep, hskip, ih hnd.2, hhead]

lemma lookupVal_aligned_pre (sig : List Param) (env : Env)
    (h : List.Forall₂ (fun p (e : String × Value) => e.1 = p.name) sig env) :
    ∀ pre : Env, ((pre ++ env).map Prod.fst).Nodup →
      List.Forall₂ (fun p (e : String × Value) => lookupVal (pre ++ env) p.name = some e.2) sig env := by
  induction h with
  | nil => intro pre _; exact List.Forall₂.nil
  | cons hr hrest ih =>
    rename_i p e sig2 env2
    intro pre hnd
    have hmemnd : e.1 ∉ pre.map Prod.fst := by
      rw [List.map_append] at hnd
      rcases List.nodup_append.mp hnd with ⟨_, _, hdisj⟩
      intro hmem
      exact hdisj hmem (by simp)
    constructor
    · rw [lookupVal_append_of_not_mem pre (e :: env2) p.name (by rw [hr] at hmemnd; exact hmemnd)]
      obtain ⟨k, v⟩ := e
      simp only at hr
      simp [lookupVal, hr]
    · have := ih (pre ++ [e]) (by simpa using hnd)
      simpa using this

lemma boundArgs_spec (full : Env) (P : List Param) (vals : List Value)
    (h : List.Forall₂ (fun p v => p.kind ≠ ParamKind.keywordOnly ∧ lookupVal full p.name = some v) P vals) :
    ∀ Q : List Param, (∀ q ∈ Q.head?, q.kind = ParamKind.keywordOnly) →
      boundArgs (P ++ Q) full = vals := by
  induction h with
  | nil =>
    intro Q hQ
    cases Q with
    | nil => rfl
    | cons q rest =>
      have hq : q.kind = ParamKind.keywordOnly := hQ q (by simp)
      simp [boundArgs, hq]
  | cons hr hrest ih =>
    rename_i p v P2 vals2
    intro Q hQ
    simp only [List.cons_append, boundArgs]
    rw [if_neg (by simp [hr.1]), hr.2]
    show v :: boundArgs (P2 ++ Q) full = v :: vals2
    rw [ih Q hQ]

lemma boundKwargs_skip (full : Env) (P : List Param)
    (h : ∀ p ∈ P, p.kind ≠ ParamKind.keywordOnly ∧ (lookupVal full p.name).isSome) :
    ∀ Q : List Param, boundKwargs (P ++ Q) full false = boundKwargs Q full false := by
  induction P with
  | nil => intro Q; rfl
  | cons p rest ih =>
    intro Q
    obtain ⟨hk, hs⟩ := h p (List.mem_cons_self _ _)
    simp only [List.cons_append, boundKwargs]
    rw [if_neg (by simp [hk])]
    cases hlk : lookupVal full p.name with
    | none => rw [hlk] at hs; simp at hs
    | some v =>
      exact ih (fun q hq => h q (List.mem_cons_of_mem _ hq)) Q

lemma boundKwargs_emit (full : Env) (Q : List Param) (B : Env)
    (h : List.Forall₂ (fun q (b : String × Value) => b.1 = q.name ∧ lookupVal full q.name = some b.2) Q B)
    (hk : ∀ q ∈ Q, q.kind = ParamKind.keywordOnly) :
    ∀ s : Bool, boundKwargs Q full s = B := by
  induction h with
  | nil => intro s; rfl
  | cons hr hrest ih =>
    rename_i q b Q2 B2
    intro s
    have hq : q.kind = ParamKind.keywordOnly := hk q (List.mem_cons_self _ _)
    simp only [boundKwargs]
    rw [if_pos (by simp [hq]), hr.2]
    rw [ih (fun x hx => hk x (List.mem_cons_of_mem _ hx)) true]
    obtain ⟨k, v⟩ := b
    simp only at hr
    simp [hr.1]

lemma bindPos_aligned (kwNames : List String) (A : Env) (P : List Param)
    (h : List.Forall₂ (fun (a : String × Value) (p : Param) =>
        p.name = a.1 ∧ p.kind ≠ ParamKind.keywordOnly ∧ a.1 ∉ kwNames) A P) :
    ∀ R : List Param, bindPos (P ++ R) (A.map Prod.snd) kwNames = .ok (A, R) := by
  induction h with
  | nil => intro R; simp [bindPos]
  | cons hr hrest ih =>
    rename_i a p A2 P2
    intro R
    obtain ⟨hname, hkind, hkw⟩ := hr
    simp only [List.cons_append, List.map_cons, bindPos, List.append_eq]
    rw [if_neg hkind, if_neg (fun hc => hkw (hname ▸ hc.1))]
    rw [ih R]
    show Except.ok ((p.name, a.2) :: A2, R) = Except.ok (a :: A2, R)
    obtain ⟨k, v⟩ := a
    simp only at hname
    simp [hname]

lemma bindKw_aligned (B : Env) (Q : List Param)
    (h : List.Forall₂ (fun (b : String × Value) (q : Param) =>
        q.name = b.1 ∧ q.kind ≠ ParamKind.positionalOnly) B Q) :
    bindKw Q B = .ok B := by
  induction h with
  | nil => rfl
  | cons hr hrest ih =>
    rename_i b q B2 Q2
    obtain ⟨hname, hkind⟩ := hr
    have hpop : popKw (b :: B2) q.name = some (b.2, B2) := by
      obtain ⟨k, v⟩ := b
      simp only at hname
      simp [popKw, hname]
    simp only [bindKw, hpop]
    rw [if_neg (by simp [hkind])]
    rw [ih]
    show Except.ok ((q.name, b.2) :: B2) = Except.ok (b :: B2)
    obtain ⟨k, v⟩ := b
    simp only at hname
    simp [hname]

lemma lookupVal_isSome_of_mem (env : Env) (n : String) (h : n ∈ env.map Prod.fst) :
    (lookupVal env n).isSome := by
  cases hx : lookupVal env n with
  | none => exact absurd h ((lookupVal_eq_none_iff env n).mp hx)
  | some v => rfl

lemma forall₂_and_both {α β : Type} {r s : α → β → Prop} :
    ∀ {l : List α} {k : List β}, List.Forall₂ r l k → List.Forall₂ s l k →
      List.Forall₂ (fun a b => r a b ∧ s a b) l k := by
  intro l k h1 h2
  induction h1 with
  | nil => exact List.Forall₂.nil
  | cons hr hrest ih =>
    cases h2 with
    | cons hs hrest2 => exact List.Forall₂.cons ⟨hr, hs⟩ (ih hrest2)

lemma forall₂_with_mem_left {α β : Type} {r : α → β → Prop} :
    ∀ {l : List α} {k : List β}, List.Forall₂ r l k →
      List.Forall₂ (fun a b => r a b ∧ a ∈ l) l k := by
  intro l k h
  induction h with
  | nil => exact List.Forall₂.nil
  | cons hr hrest ih =>
    exact List.Forall₂.cons ⟨hr, List.mem_cons_self _ _⟩
      (ih.imp fun a b hab => ⟨hab.1, List.mem_cons_of_mem _ hab.2⟩)

lemma forall₂_append_split {α β : Type} {R : α → β → Prop} :
    ∀ (l₁ l₂ : List α) (k : List β), List.Forall₂ R (l₁ ++ l₂) k →
      ∃ k₁ k₂, k = k₁ ++ k₂ ∧ List.Forall₂ R l₁ k₁ ∧ List.Forall₂ R l₂ k₂ := by
  intro l₁
  induction l₁ with
  | nil => intro l₂ k h; exact ⟨[], k, rfl, List.Forall₂.nil, by simpa using h⟩
  | cons a l ih =>
    intro l₂ k h
    cases h with
    | cons hr hrest =>
      rename_i b k2
      obtain ⟨k₁, k₂, hk, h1, h2⟩ := ih l₂ k2 hrest
      exact ⟨b :: k₁, k₂, by simp [hk], List.Forall₂.cons hr h1, h2⟩

lemma forall₂_map_snd {R : Param → Value → Prop} :
    ∀ {P : List Param} {A : Env},
      List.Forall₂ (fun p (e : String × Value) => R p e.2) P A →
      List.Forall₂ R P (A.map Prod.snd) := by
  intro P A h
  induction h with
  | nil => exact List.Forall₂.nil
  | cons hr hrest ih =>
    simp only [List.map_cons]
    exact List.Forall₂.cons hr ih

lemma applyDefaults_aligned (sig : List Param) (bound : Env)
    (h : ∀ p ∈ sig, p.default = none → (lookupVal bound p.name).isSome) :
    List.Forall₂ (fun p (e : String × Value) => e.1 = p.name) sig (applyDefaults sig bound) := by
  induction sig with
  | nil => exact List.Forall₂.nil
  | cons p rest ih =>
    have hrest := ih (fun q hq => h q (List.mem_cons_of_mem _ hq))
    cases hlk : lookupVal bound p.name with
    | some v =>
      have hstep : applyDefaults (p :: rest) bound = (p.name, v) :: applyDefaults rest bound := by
        simp only [applyDefaults, List.filterMap_cons, hlk]
      rw [hstep]
      exact List.Forall₂.cons rfl hrest
    | none =>
      cases hd : p.default with
      | none =>
        have := h p (List.mem_cons_self _ _) hd
        rw [hlk] at this
        simp at this
      | some d =>
        have hstep : applyDefaults (p :: rest) bound = (p.name, d) :: applyDefaults rest bound := by
          simp [applyDefaults, List.filterMap_cons, hlk, hd]
        rw [hstep]
        exact List.Forall₂.cons rfl hrest

lemma fix_param_name (p : Param) : (fix_param p).name = p.name := rfl

lemma fix_param_annot (p : Param) : (fix_param p).annot = p.annot := rfl

lemma fix_param_kind_eq (p : Param) :
    (fix_param p).kind = if isOptionInfo p.default then ParamKind.keywordOnly else p.kind := rfl

lemma fix_param_kw_of_kw (p : Param) (h : p.kind = ParamKind.keywordOnly) :
    (fix_param p).kind = ParamKind.keywordOnly := by
  rw [fix_param_kind_eq]
  split
  · rfl
  · exact h

lemma map_name_fix (ps : List Param) :
    (ps.map fix_param).map Param.name = ps.map Param.name := by
  induction ps with
  | nil => rfl
  | cons p rest ih => simp [fix_param_name, ih]

lemma kw_of_rank_ge (k : ParamKind) (h : 3 ≤ kindRank k) : k = ParamKind.keywordOnly := by
  cases k with
  | positionalOnly => simp [kindRank] at h
  | positionalOrKeyword => simp [kindRank] at h
  | keywordOnly => rfl

lemma dropWhile_kw_all (fs : List Param)
    (hpw : List.Pairwise (fun a b => kindRank a.kind ≤ kindRank b.kind) fs) :
    ∀ q ∈ fs.dropWhile (fun p => !(p.kind == ParamKind.keywordOnly)),
      q.kind = ParamKind.keywordOnly := by
  intro q hq
  cases hQ : fs.dropWhile (fun p => !(p.kind == ParamKind.keywordOnly)) with
  | nil => rw [hQ] at hq; simp at hq
  | cons q0 Q2 =>
    have hhead := List.head?_dropWhile_not (fun p => !(p.kind == ParamKind.keywordOnly)) fs
    rw [hQ] at hhead
    simp only [List.head?_cons] at hhead
    have hq0 : q0.kind = ParamKind.keywordOnly := by
      simpa using hhead
    have hsub : List.Pairwise (fun a b => kindRank a.kind ≤ kindRank b.kind) (q0 :: Q2) := by
      rw [← hQ]
      exact hpw.sublist (List.dropWhile_sublist _)
    rw [hQ] at hq
    rcases List.mem_cons.mp hq with hq | hq
    · subst hq; exact hq0
    · have hle := (List.pairwise_cons.mp hsub).1 q hq
      rw [hq0] at hle
      exact kw_of_rank_ge q.kind hle

/-- Central forwarding lemma: when the wrapper produced by
`dtyper.function` binds a call successfully against the corrected
signature, it invokes the original callable on the fully defaulted
argument mapping and returns its result unchanged. The hypothesis
excludes positional-only parameters, which cannot occur in a typer
command declared as a plain `def`. -/
lemma wrapperCall_forwards (f : Callable) (w : Wrapper) (args : List Value) (kwargs : Env)
    (bound : Env)
    (hkinds : ∀ p ∈ f.sig, p.kind ≠ ParamKind.positionalOnly)
    (hw : dtyperFunction f = .ok w)
    (hb : sigBind w.sig args kwargs = .ok bound) :
    Wrapper.call w args kwargs = .ok (f.body (applyDefaults w.sig bound)) := by
  unfold dtyperFunction at hw
  split at hw
  · simp at hw
  · rename_i s hfix
    simp only [Except.ok.injEq] at hw
    subst hw
    simp only at hb ⊢
    have hs_eq : s = f.sig.map fix_param := mkSignature_ok_eq _ _ hfix
    subst hs_eq
    obtain ⟨u, hval⟩ := mkSignature_ok_valid _ _ hfix
    have hnodup : ((f.sig.map fix_param).map Param.name).Nodup :=
      (validateParams_ok_nodup _ _ _ _ _ hval).1
    have hpw : List.Pairwise (fun a b => kindRank a.kind ≤ kindRank b.kind) (f.sig.map fix_param) :=
      (validateParams_ok_pairwise _ _ _ _ _ hval).1
    set fs := f.sig.map fix_param with hfs
    -- decompose the successful bind
    unfold sigBind at hb
    split at hb
    · simp at hb
    · rename_i envP rem hbp
      split at hb
      · simp at hb
      · rename_i envK hbk
        simp only [Except.ok.injEq] at hb
        -- coverage: every required parameter of the corrected signature is bound
        have hcover : ∀ p ∈ fs, p.default = none → (lookupVal bound p.name).isSome := by
          intro p hp _
          obtain ⟨P0, hsplit, hal, _⟩ := bindPos_shape args fs _ envP rem hbp
          rw [hsplit] at hp
          rcases List.mem_append.mp hp with hpP | hpR
          · have hnames : envP.map Prod.fst = P0.map Param.name :=
              forall₂_fst_eq P0 envP (hal.imp fun p e he => he.1)
            have hmem : p.name ∈ envP.map Prod.fst := by
              rw [hnames]
              exact List.mem_map_of_mem Param.name hpP
            have hsome := lookupVal_isSome_of_mem envP p.name hmem
            rw [← hb, lookupVal_append_left envP envK p.name hsome]
            exact hsome
          · have hsome := bindKw_requires rem kwargs envK hbk p hpR (by assumption)
            rw [← hb]
            exact isSome_lookupVal_append envP envK p.name hsome
        -- the fully defaulted mapping is aligned with the corrected signature
        set full := applyDefaults fs bound with hfulldef
        have halign : List.Forall₂ (fun p (e : String × Value) => e.1 = p.name) fs full :=
          applyDefaults_aligned fs bound hcover
        have hfullfst : full.map Prod.fst = fs.map Param.name := forall₂_fst_eq fs full halign
        have hfullnd : (full.map Prod.fst).Nodup := by rw [hfullfst]; exact hnodup
        have hlook : List.Forall₂ (fun p (e : String × Value) =>
            lookupVal full p.name = some e.2) fs full := by
          have := lookupVal_aligned_pre fs full halign [] (by simpa using hfullnd)
          simpa using this
        have hcomb : List.Forall₂ (fun p (e : String × Value) =>
            e.1 = p.name ∧ lookupVal full p.name = some e.2) fs full :=
          forall₂_and_both halign hlook
        -- split the corrected signature at the first keyword-only parameter
        set P := fs.takeWhile (fun p => !(p.kind == ParamKind.keywordOnly)) with hP
        set Q := fs.dropWhile (fun p => !(p.kind == ParamKind.keywordOnly)) with hQ
        have hPQ : P ++ Q = fs := List.takeWhile_append_dropWhile _ _
        have hPkinds : ∀ p ∈ P, p.kind ≠ ParamKind.keywordOnly := by
          intro p hp
          have := List.mem_takeWhile_imp hp
          simpa using this
        have hQkw : ∀ q ∈ Q, q.kind = ParamKind.keywordOnly := dropWhile_kw_all fs hpw
        -- split the full mapping accordingly
        rw [← hPQ] at hcomb
        obtain ⟨A, B, hAB, hA, hB⟩ := forall₂_append_split P Q full hcomb
        have hBfst : B.map Prod.fst = Q.map Param.name :=
          forall₂_fst_eq Q B (hB.imp fun q e he => he.1)
        have hdisj : ∀ n, n ∈ P.map Param.name → n ∉ Q.map Param.name := by
          have hnd2 : (P.map Param.name ++ Q.map Param.name).Nodup := by
            rw [← List.map_append, hPQ]
            exact hnodup
          intro n hnP hnQ
          rcases List.nodup_append.mp hnd2 with ⟨_, _, hd⟩
          exact hd hnP hnQ
        -- the wrapper forwards boundArgs / boundKwargs computed from full
        have hbA : boundArgs fs full = A.map Prod.snd := by
          rw [← hPQ]
          apply boundArgs_spec full P (A.map Prod.snd)
          · apply forall₂_map_snd
            have hAm := forall₂_with_mem_left hA
            exact hAm.imp fun p e he => ⟨hPkinds p he.2, he.1.2⟩
          · intro q hq
            exact hQkw q (List.mem_of_mem_head? hq)
        have hbB : boundKwargs fs full false = B := by
          rw [← hPQ]
          rw [boundKwargs_skip full P ?hskipP Q]
          · exact boundKwargs_emit full Q B
              (hB.imp fun q e he => ⟨he.1, he.2⟩) hQkw false
          case hskipP =>
            intro p hp
            refine ⟨hPkinds p hp, ?_⟩
            apply lookupVal_isSome_of_mem
            rw [hfullfst, ← hPQ, List.map_append]
            exact List.mem_append_left _ (List.mem_map_of_mem Param.name hp)
        -- the original signature splits in step with the corrected one
        set OP := f.sig.take P.length with hOP
        set OQ := f.sig.drop P.length with hOQ
        have hOPQ : OP ++ OQ = f.sig := List.take_append_drop _ _
        have htakefs : fs.take P.length = P := by
          rw [← hPQ]
          exact List.take_left P Q
        have hdropfs : fs.drop P.length = Q := by
          rw [← hPQ]
          exact List.drop_left P Q
        have hmapP : OP.map fix_param = P := by
          rw [hOP, List.map_take, ← hfs, htakefs]
        have hmapQ : OQ.map fix_param = Q := by
          rw [hOQ, List.map_drop, ← hfs, hdropfs]
        -- positional phase against the original signature
        have halpha : List.Forall₂ (fun (a : String × Value) (o : Param) =>
            o.name = a.1 ∧ o.kind ≠ ParamKind.keywordOnly ∧ a.1 ∉ B.map Prod.fst) A OP := by
          have hA1 := hA
          rw [← hmapP] at hA1
          have hA2 := forall₂_with_mem_left (List.forall₂_map_left_iff.mp hA1)
          apply List.Forall₂.flip
          apply hA2.imp
          intro o e he
          obtain ⟨⟨hefst, _⟩, hmem⟩ := he
          have hofix : (fix_param o).name = o.name := fix_param_name o
          have hmemP : fix_param o ∈ P := by
            rw [← hmapP]
            exact List.mem_map_of_mem fix_param hmem
          refine ⟨by rw [hefst, hofix], ?_, ?_⟩
          · intro hkw
            exact hPkinds (fix_param o) hmemP (fix_param_kw_of_kw o hkw)
          · rw [hBfst, hefst, hofix]
            intro hcontra
            refine hdisj o.name ?_ hcontra
            rw [← hofix]
            exact List.mem_map_of_mem Param.name hmemP
        -- keyword phase against the original signature
        have hbeta : List.Forall₂ (fun (b : String × Value) (o : Param) =>
            o.name = b.1 ∧ o.kind ≠ ParamKind.positionalOnly) B OQ := by
          have hB1 := hB
          rw [← hmapQ] at hB1
          have hB2 := forall₂_with_mem_left (List.forall₂_map_left_iff.mp hB1)
          apply List.Forall₂.flip
          apply hB2.imp
          intro o e he
          obtain ⟨⟨hefst, _⟩, hmem⟩ := he
          constructor
          · rw [hefst, fix_param_name]
          · apply hkinds
            rw [← hOPQ]
            exact List.mem_append_right OP hmem
        have hsb : sigBind f.sig (A.map Prod.snd) B = .ok full := by
          rw [← hOPQ]
          unfold sigBind
          rw [bindPos_aligned (B.map Prod.fst) A OP halpha OQ]
          show (match bindKw OQ B with
            | Except.error e => Except.error e
            | Except.ok envKw => Except.ok (A ++ envKw)) = Except.ok full
          rw [bindKw_aligned B OQ hbeta]
          rw [hAB]
        -- final assembly
        have hadf : applyDefaults f.sig full = full := by
          apply applyDefaults_full
          · have h1 : List.Forall₂ (fun p (e : String × Value) => e.1 = p.name) fs full := halign
            rw [hfs] at h1
            have h2 := List.forall₂_map_left_iff.mp h1
            exact h2.imp fun o e he => by rw [he, fix_param_name]
          · have : f.sig.map Param.name = fs.map Param.name := by
              rw [hfs, map_name_fix]
            rw [this]
            exact hnodup
        show Wrapper.call ⟨f, fs, f.name, none⟩ args kwargs = .ok (f.body full)
        unfold Wrapper.call
        simp only
        rw [show sigBind fs args kwargs = .ok bound from ?_]
        · show callPy f (boundArgs fs (applyDefaults fs bound))
              (boundKwargs fs (applyDefaults fs bound) false) = .ok (f.body full)
          rw [← hfulldef, hbA, hbB]
          unfold callPy
          rw [hsb]
          show Except.ok (f.body (applyDefaults f.sig full)) = .ok (f.body full)
          rw [hadf]
        · unfold sigBind
          rw [hbp]
          show (match bindKw rem kwargs with
            | Except.error e => Except.error e
            | Except.ok envKw => Except.ok (envP ++ envKw)) = Except.ok bound
          rw [hbk]
          show Except.ok (envP ++ envK) = Except.ok bound
          rw [hb]

/-- The number of leading parameters that can receive a positional
argument (everything before the first KEYWORD_ONLY parameter). -/
def posCapacity (sig : List Param) : Nat :=
  (sig.takeWhile (fun p => !(p.kind == ParamKind.keywordOnly))).length

/-- The call supplies a keyword argument whose name is not a parameter
name of the signature. -/
def hasUnexpectedKw (sig : List Param) (kwargs : Env) : Bool :=
  kwargs.any (fun e => !(decide (e.1 ∈ sig.map Param.name)))

/-- The call supplies more positional arguments than the signature can
accept positionally. -/
def tooManyPos (sig : List Param) (args : List Value) : Bool :=
  decide (posCapacity sig < args.length)

/-- The call omits some parameter that has no default: the parameter sits
at a position not covered by the positional arguments (`nargs` counts
down along the signature) and its name is not among the keywords. -/
def omitsRequired : List Param → Nat → Env → Bool
  | [], _, _ => false
  | p :: rest, nargs, kwargs =>
    (decide (nargs = 0) && p.default.isNone && !(decide (p.name ∈ kwargs.map Prod.fst)))
      || omitsRequired rest (nargs - 1) kwargs

lemma bindKw_unexpected (params : List Param) :
    ∀ kwargs : Env, (∃ e ∈ kwargs, e.1 ∉ params.map Param.name) →
      ∃ er, bindKw params kwargs = .error er := by
  induction params with
  | nil =>
    intro kwargs h
    obtain ⟨e, he, _⟩ := h
    cases kwargs with
    | nil => simp at he
    | cons x rest => exact ⟨_, rfl⟩
  | cons p rest ih =>
    intro kwargs h
    obtain ⟨e, he, hnames⟩ := h
    simp only [List.map_cons, List.mem_cons] at hnames
    push_neg at hnames
    cases hpop : popKw kwargs p.name with
    | none =>
      cases hdef : p.default with
      | none =>
        exact ⟨Err.typeError ("missing a required argument: " ++ p.name),
          by simp [bindKw, hpop, hdef]⟩
      | some d =>
        obtain ⟨er, hr⟩ := ih kwargs ⟨e, he, hnames.2⟩
        exact ⟨er, by simp [bindKw, hpop, hdef, hr]⟩
    | some pr =>
      by_cases hk : p.kind = ParamKind.positionalOnly
      · exact ⟨Err.typeError (p.name ++ " parameter is positional only, but was passed as a keyword"),
          by simp [bindKw, hpop, hk]⟩
      · have hein : e ∈ pr.2 := by
          obtain ⟨A0, B0, h1, h2, _⟩ := popKw_shape kwargs p.name pr.1 pr.2 hpop
          rw [h1] at he
          rw [h2]
          rcases List.mem_append.mp he with hh | hh
          · exact List.mem_append_left _ hh
          · rcases List.mem_cons.mp hh with hh | hh
            · exfalso
              apply hnames.1
              rw [hh]
            · exact List.mem_append_right _ hh
        obtain ⟨er, hr⟩ := ih pr.2 ⟨e, hein, hnames.2⟩
        exact ⟨er, by simp [bindKw, hpop, hk, hr]⟩

lemma posCapacity_cons_ne (p : Param) (rest : List Param)
    (h : p.kind ≠ ParamKind.keywordOnly) :
    posCapacity (p :: rest) = posCapacity rest + 1 := by
  simp [posCapacity, List.takeWhile_cons, h]

lemma posCapacity_cons_kw (p : Param) (rest : List Param)
    (h : p.kind = ParamKind.keywordOnly) :
    posCapacity (p :: rest) = 0 := by
  simp [posCapacity, List.takeWhile_cons, h]

lemma bindPos_tooMany (args : List Value) :
    ∀ (sig : List Param) (kw : List String), posCapacity sig < args.length →
      ∃ er, bindPos sig args kw = .error er := by
  induction args with
  | nil => intro sig kw h; simp at h
  | cons a as ih =>
    intro sig kw h
    cases sig with
    | nil => exact ⟨_, rfl⟩
    | cons p rest =>
      by_cases hk : p.kind = ParamKind.keywordOnly
      · exact ⟨Err.typeError "too many positional arguments", by simp [bindPos, hk]⟩
      · by_cases hmult : p.name ∈ kw ∧ p.kind ≠ ParamKind.positionalOnly
        · exact ⟨Err.typeError ("multiple values for argument " ++ p.name),
            by simp [bindPos, hk, hmult]⟩
        · rw [posCapacity_cons_ne p rest hk] at h
          obtain ⟨er, hr⟩ := ih rest kw (by simp only [List.length_cons] at h; omega)
          exact ⟨er, by simp [bindPos, hk, hmult, hr]⟩

lemma bindKw_missing (params : List Param) :
    ∀ kwargs : Env, (∃ p ∈ params, p.default = none ∧ p.name ∉ kwargs.map Prod.fst) →
      ∃ er, bindKw params kwargs = .error er := by
  induction params with
  | nil => intro kwargs h; simp at h
  | cons q rest ih =>
    intro kwargs h
    obtain ⟨p, hp, hdef, hnot⟩ := h
    rcases List.mem_cons.mp hp with hp | hp
    · subst hp
      have hpop : popKw kwargs p.name = none := popKw_eq_none_of_not_mem kwargs p.name hnot
      exact ⟨Err.typeError ("missing a required argument: " ++ p.name),
        by simp [bindKw, hpop, hdef]⟩
    · cases hpop : popKw kwargs q.name with
      | none =>
        cases hdefq : q.default with
        | none =>
          exact ⟨Err.typeError ("missing a required argument: " ++ q.name),
            by simp [bindKw, hpop, hdefq]⟩
        | some d =>
          obtain ⟨er, hr⟩ := ih kwargs ⟨p, hp, hdef, hnot⟩
          exact ⟨er, by simp [bindKw, hpop, hdefq, hr]⟩
      | some pr =>
        by_cases hk : q.kind = ParamKind.positionalOnly
        · exact ⟨Err.typeError (q.name ++ " parameter is positional only, but was passed as a keyword"),
            by simp [bindKw, hpop, hk]⟩
        · have hnot2 : p.name ∉ pr.2.map Prod.fst := by
            intro hc
            exact hnot (popKw_names_subset kwargs q.name pr.1 pr.2 hpop p.name hc)
          obtain ⟨er, hr⟩ := ih pr.2 ⟨p, hp, hdef, hnot2⟩
          exact ⟨er, by simp [bindKw, hpop, hk, hr]⟩

lemma omitsRequired_zero (l : List Param) :
    ∀ kw : Env, omitsRequired l 0 kw = true →
      ∃ p ∈ l, p.default = none ∧ p.name ∉ kw.map Prod.fst := by
  induction l with
  | nil => intro kw h; simp [omitsRequired] at h
  | cons p rest ih =>
    intro kw h
    simp only [omitsRequired, Bool.or_eq_true, Bool.and_eq_true] at h
    rcases h with ⟨⟨_, hdef⟩, hnot⟩ | h
    · refine ⟨p, List.mem_cons_self _ _, ?_, ?_⟩
      · cases hd : p.default with
        | none => rfl
        | some d => rw [hd] at hdef; simp at hdef
      · simpa using hnot
    · obtain ⟨q, hq, h1, h2⟩ := ih kw h
      exact ⟨q, List.mem_cons_of_mem _ hq, h1, h2⟩

lemma omitsRequired_append (P0 : List Param) :
    ∀ (rem : List Param) (kw : Env), omitsRequired (P0 ++ rem) P0.length kw = true →
      ∃ p ∈ rem, p.default = none ∧ p.name ∉ kw.map Prod.fst := by
  induction P0 with
  | nil => intro rem kw h; exact omitsRequired_zero rem kw (by simpa using h)
  | cons q P0 ih =>
    intro rem kw h
    simp only [List.cons_append, omitsRequired, List.length_cons] at h
    simp only [Nat.add_sub_cancel] at h
    simp only [Bool.or_eq_true] at h
    rcases h with hbad | h2
    · simp at hbad
    · exact ih rem kw h2

lemma sigBind_fails_unexpected (sig : List Param) (args : List Value) (kwargs : Env)
    (h : hasUnexpectedKw sig kwargs = true) :
    ∃ er, sigBind sig args kwargs = .error er := by
  simp only [hasUnexpectedKw, List.any_eq_true] at h
  obtain ⟨e, he, hnotb⟩ := h
  have hnot : e.1 ∉ sig.map Param.name := by simpa using hnotb
  cases hbp : bindPos sig args (kwargs.map Prod.fst) with
  | error er => exact ⟨er, by simp [sigBind, hbp]⟩
  | ok pr =>
    obtain ⟨P0, hsplit, _, _⟩ := bindPos_shape args sig _ pr.1 pr.2 hbp
    have hnotrem : e.1 ∉ pr.2.map Param.name := by
      intro hc
      apply hnot
      rw [hsplit, List.map_append]
      exact List.mem_append_right _ hc
    obtain ⟨er, hbk⟩ := bindKw_unexpected pr.2 kwargs ⟨e, he, hnotrem⟩
    exact ⟨er, by simp [sigBind, hbp, hbk]⟩

lemma sigBind_fails_tooMany (sig : List Param) (args : List Value) (kwargs : Env)
    (h : tooManyPos sig args = true) :
    ∃ er, sigBind sig args kwargs = .error er := by
  obtain ⟨er, hbp⟩ := bindPos_tooMany args sig (kwargs.map Prod.fst) (of_decide_eq_true h)
  exact ⟨er, by simp [sigBind, hbp]⟩

lemma sigBind_fails_missing (sig : List Param) (args : List Value) (kwargs : Env)
    (h : omitsRequired sig args.length kwargs = true) :
    ∃ er, sigBind sig args kwargs = .error er := by
  cases hbp : bindPos sig args (kwargs.map Prod.fst) with
  | error er => exact ⟨er, by simp [sigBind, hbp]⟩
  | ok pr =>
    obtain ⟨P0, hsplit, hal, hlen⟩ := bindPos_shape args sig _ pr.1 pr.2 hbp
    have hP0len : P0.length = args.length := by
      rw [← hlen]
      exact hal.length_eq
    rw [hsplit, ← hP0len] at h
    obtain ⟨p, hp, h1, h2⟩ := omitsRequired_append P0 pr.2 kwargs h
    obtain ⟨er, hbk⟩ := bindKw_missing pr.2 kwargs ⟨p, hp, h1, h2⟩
    exact ⟨er, by simp [sigBind, hbp, hbk]⟩

lemma checkFields_any_required (fds : List FieldDesc) :
    (∃ fd ∈ fds, fd.default = none) →
      ∃ msg, checkFields fds true = .error (.typeError msg) := by
  induction fds with
  | nil => intro h; simp at h
  | cons fd rest ih =>
    intro h
    obtain ⟨g, hg, hgdef⟩ := h
    cases hd : fd.default with
    | none =>
      exact ⟨"non-default argument " ++ fd.name ++ " follows default argument",
        by simp [checkFields, hd]⟩
    | some d =>
      have hrest : ∃ g2 ∈ rest, g2.default = none := by
        rcases List.mem_cons.mp hg with hg | hg
        · subst hg; rw [hd] at hgdef; simp at hgdef
        · exact ⟨g, hg, hgdef⟩
      obtain ⟨msg, hmsg⟩ := ih hrest
      exact ⟨msg, by simp [checkFields, hd, hmsg]⟩

lemma checkFields_violation (fds : List FieldDesc) :
    ∀ b, hasReqAfterOpt fds = true →
      ∃ msg, checkFields fds b = .error (.typeError msg) := by
  induction fds with
  | nil => intro b h; simp [hasReqAfterOpt] at h
  | cons fd rest ih =>
    intro b h
    simp only [hasReqAfterOpt, Bool.or_eq_true, Bool.and_eq_true] at h
    rcases h with ⟨hsome, hany⟩ | h2
    · obtain ⟨d, hd⟩ := Option.isSome_iff_exists.mp hsome
      have hrest : ∃ g ∈ rest, g.default = none := by
        rcases List.any_eq_true.mp hany with ⟨g, hg, hgdef⟩
        exact ⟨g, hg, Option.isNone_iff_eq_none.mp hgdef⟩
      obtain ⟨msg, hmsg⟩ := checkFields_any_required rest hrest
      exact ⟨msg, by simp [checkFields, hd, hmsg]⟩
    · cases hd : fd.default with
      | none =>
        cases b with
        | true =>
          exact ⟨"non-default argument " ++ fd.name ++ " follows default argument",
            by simp [checkFields, hd]⟩
        | false =>
          obtain ⟨msg, hmsg⟩ := ih false h2
          exact ⟨msg, by simp [checkFields, hd, hmsg]⟩
      | some d =>
        obtain ⟨msg, hmsg⟩ := ih true h2
        exact ⟨msg, by simp [checkFields, hd, hmsg]⟩

lemma fix_param_idem (p : Param)
    (h : ∀ v, p.default = some v →
      isDescriptor (getattrDefault v) = false ∧ getattrDefault v ≠ Value.ellipsis) :
    fix_param (fix_param p) = fix_param p := by
  obtain ⟨n, an, k, d⟩ := p
  cases d with
  | none => rfl
  | some v =>
    obtain ⟨hnd, hne⟩ := h v rfl
    cases v with
    | vNone => rfl
    | vBool b => rfl
    | vInt n2 => rfl
    | vStr s2 => rfl
    | vPair x y => rfl
    | ellipsis => simp [getattrDefault] at hne
    | argumentInfo i =>
      simp only [getattrDefault] at hnd hne
      cases i with
      | ellipsis => simp at hne
      | argumentInfo j => simp [isDescriptor] at hnd
      | optionInfo j => simp [isDescriptor] at hnd
      | vNone => rfl
      | vBool b => rfl
      | vInt n2 => rfl
      | vStr s2 => rfl
      | vPair x y => rfl
    | optionInfo i =>
      simp only [getattrDefault] at hnd hne
      cases i with
      | ellipsis => simp at hne
      | argumentInfo j => simp [isDescriptor] at hnd
      | optionInfo j => simp [isDescriptor] at hnd
      | vNone => rfl
      | vBool b => rfl
      | vInt n2 => rfl
      | vStr s2 => rfl
      | vPair x y => rfl

lemma fixedSignature_idem (ps fs : List Param)
    (h : ∀ p ∈ ps, ∀ v, p.default = some v →
      isDescriptor (getattrDefault v) = false ∧ getattrDefault v ≠ Value.ellipsis)
    (hfix : fixedSignature ps = .ok fs) :
    fixedSignature fs = .ok fs := by
  have hfs : fs = ps.map fix_param := mkSignature_ok_eq _ _ hfix
  have hmapidem : fs.map fix_param = fs := by
    rw [hfs, List.map_map]
    apply List.map_congr_left
    intro p hp
    show fix_param (fix_param p) = fix_param p
    exact fix_param_idem p (h p hp)
  show mkSignature (fs.map fix_param) = .ok fs
  rw [hmapidem]
  have : mkSignature (ps.map fix_param) = .ok fs := hfix
  rw [← hfs] at this
  exact this

lemma fieldsToSig_names (fds : List FieldDesc) :
    (fieldsToSig fds).map Param.name = fds.map FieldDesc.name := by
  induction fds with
  | nil => rfl
  | cons fd rest ih =>
    simp only [fieldsToSig, List.map_cons] at ih ⊢
    rw [ih]

/-- The entry `apply_defaults` produces for one parameter. -/
def adEntry (bound : Env) (p : Param) : Option (String × Value) :=
  match lookupVal bound p.name with
  | some v => some (p.name, v)
  | none => p.default.map (fun d => (p.name, d))

lemma applyDefaults_eq_filterMap (sig : List Param) (bound : Env) :
    applyDefaults sig bound = sig.filterMap (adEntry bound) := rfl

lemma adEntry_fst (bound : Env) (p : Param) (x : String × Value)
    (h : adEntry bound p = some x) : x.1 = p.name := by
  unfold adEntry at h
  split at h
  · simp only [Option.some.injEq] at h
    rw [← h]
  · cases hd : p.default with
    | none => rw [hd] at h; simp at h
    | some d =>
      rw [hd] at h
      simp only [Option.map_some', Option.some.injEq] at h
      rw [← h]

lemma applyDefaults_fst_mem (sig : List Param) (bound : Env) :
    ∀ x ∈ applyDefaults sig bound, x.1 ∈ sig.map Param.name := by
  induction sig with
  | nil => intro x hx; simp [applyDefaults] at hx
  | cons q rest ih =>
    intro x hx
    rw [applyDefaults_eq_filterMap, List.filterMap_cons] at hx
    cases he : adEntry bound q with
    | none =>
      rw [he] at hx
      rw [← applyDefaults_eq_filterMap] at hx
      exact List.mem_cons_of_mem _ (ih x hx)
    | some b =>
      rw [he] at hx
      rcases List.mem_cons.mp hx with hx | hx
      · subst hx
        rw [adEntry_fst bound q x he]
        simp
      · rw [← applyDefaults_eq_filterMap] at hx
        exact List.mem_cons_of_mem _ (ih x hx)

lemma lookupVal_applyDefaults_of_not_bound (sig : List Param) (bound : Env) (p : Param) :
    p ∈ sig → (sig.map Param.name).Nodup → lookupVal bound p.name = none →
      lookupVal (applyDefaults sig bound) p.name = p.default := by
  induction sig with
  | nil => intro hmem; simp at hmem
  | cons q rest ih =>
    intro hmem hnd hnb
    simp only [List.map_cons, List.nodup_cons] at hnd
    rcases List.mem_cons.mp hmem with hpq | hpr
    · subst hpq
      have hskip : lookupVal (applyDefaults rest bound) p.name = none := by
        rw [lookupVal_eq_none_iff]
        intro hc
        obtain ⟨x, hx, hxfst⟩ := List.mem_map.mp hc
        have := applyDefaults_fst_mem rest bound x hx
        rw [hxfst] at this
        exact hnd.1 this
      cases hd : p.default with
      | some d =>
        have hentry : adEntry bound p = some (p.name, d) := by
          unfold adEntry
          rw [hnb, hd]
          rfl
        rw [applyDefaults_eq_filterMap, List.filterMap_cons, hentry]
        show lookupVal ((p.name, d) :: List.filterMap (adEntry bound) rest) p.name = some d
        simp [lookupVal]
      | none =>
        have hentry : adEntry bound p = none := by
          unfold adEntry
          rw [hnb, hd]
          rfl
        rw [applyDefaults_eq_filterMap, List.filterMap_cons, hentry,
          ← applyDefaults_eq_filterMap, hskip]
    · have hne : q.name ≠ p.name := by
        intro hc
        apply hnd.1
        rw [hc]
        exact List.mem_map_of_mem Param.name hpr
      have htail := ih hpr hnd.2 hnb
      rw [applyDefaults_eq_filterMap, List.filterMap_cons]
      cases he : adEntry bound q with
      | none =>
        rw [← applyDefaults_eq_filterMap]
        exact htail
      | some b =>
        have hb : b.1 = q.name := adEntry_fst bound q b he
        obtain ⟨k, v⟩ := b
        simp only at hb
        subst hb
        simp only [lookupVal, if_neg hne]
        rw [← applyDefaults_eq_filterMap]
        exact htail

/-- A parameter default with no further descriptor nesting and no
ellipsis behind the descriptor: unwrapping it yields a plain value. -/
def plainDefault : Option Value → Bool
  | none => true
  | some v => !(isDescriptor (getattrDefault v)) && !(getattrDefault v == Value.ellipsis)

lemma plainDefault_spec (d : Option Value) (h : plainDefault d = true) :
    ∀ v, d = some v →
      isDescriptor (getattrDefault v) = false ∧ getattrDefault v ≠ Value.ellipsis := by
  intro v hv
  subst hv
  simp only [plainDefault, Bool.and_eq_true, Bool.not_eq_true'] at h
  refine ⟨h.1, ?_⟩
  intro hc
  rw [hc] at h
  simp at h

/-- The instance-behavior body used in the `c_function` test:

    @dtyper.dataclass(a_command)
    def c_function(self):
        return self.bucket, self.keys, self.pid
-/
def cFnBody : Env → Value := fun inst =>
  Value.vPair (lookupD inst "bucket")
    (Value.vPair (lookupD inst "keys") (lookupD inst "pid"))

/-- The field list of the record synthesized from `get_keys` with the
`c_function` body installed as `__call__`. -/
def getKeysRecordFn : RecordType :=
  { cls_name := "get_keys", fields := getKeysFields, bases := [],
    callBody := some ("c_function", cFnBody), typer_cmd := DCInput.fn getKeysCmd }

/-- The wrapper `dtyper.Typer().command(...)` produces for `get_keys`:
the rebound wrapper carrying `_dtyper_dec` = the decorated original. -/
def getKeysTyperWrapper : Wrapper :=
  ⟨getKeysCmd, getKeysFixedSig, "get_keys", some getKeysCmd⟩

example : typerCommand getKeysCmd = .ok getKeysTyperWrapper := rfl

example :
    synthRecord (DCInput.fn getKeysCmd) none (FnOrClass.fn "c_function" cFnBody)
      = .ok getKeysRecordFn := rfl

/-- The README example-1 command, whose descriptors carry plain inner
defaults (no required sentinel):

    def get_keys_plain(
        bucket: str = Argument("buck", help=...),
        keys: bool = Option(False, help=...),
    ):
        return bucket, keys
-/
def plainKeysCmd : Callable :=
  { name := "get_keys_plain"
    sig :=
      [⟨"bucket", "str", ParamKind.positionalOrKeyword,
          some (Value.argumentInfo (Value.vStr "buck"))⟩,
       ⟨"keys", "bool", ParamKind.positionalOrKeyword,
          some (Value.optionInfo (Value.vBool false))⟩]
    body := fun env => Value.vPair (lookupD env "bucket") (lookupD env "keys") }

/-- The corrected signature of `get_keys_plain`. -/
def plainKeysFixedSig : List Param :=
  [⟨"bucket", "str", ParamKind.positionalOrKeyword, some (Value.vStr "buck")⟩,
   ⟨"keys", "bool", ParamKind.keywordOnly, some (Value.vBool false)⟩]

/-- The wrapper `dtyper.function(get_keys_plain)` returns. -/
def plainKeysWrapper : Wrapper :=
  ⟨plainKeysCmd, plainKeysFixedSig, "get_keys_plain", none⟩

example : dtyperFunction plainKeysCmd = .ok plainKeysWrapper := rfl

/-- The function object for `get_keys` in the attribute-store model. -/
def getKeysObj : FnObj := ⟨"get_keys", getKeysCmd.sig, none, none, none⟩

/-- The wrapper object `function` allocates for `get_keys` in the
attribute-store model. -/
def getKeysWrapObj : FnObj :=
  ⟨"get_keys", [], some getKeysFixedSig, none, some 0⟩

example : functionS [getKeysObj] 0 = .ok ([getKeysObj, getKeysWrapObj], 1) := rfl

/-- C1: for every callable without positional-only parameters (as typer
commands declared with a plain `def` are), invoking the rebound wrapper
produced by `function` with arguments that bind against the normalized
signature fills every omitted optional parameter with the normalized
(inner) default, calls the original callable with the fully bound
arguments, and returns its result unchanged; in particular, for the
bucket / keys / pid command, calling the wrapper with
("bukket", pid=3) returns ("bukket", "keys", 3). -/
theorem claim_C1_rebound_wrapper_roundtrip :
    (∀ (f : Callable) (w : Wrapper) (args : List Value) (kwargs : Env) (bound : Env),
      (∀ p ∈ f.sig, p.kind ≠ ParamKind.positionalOnly) →
      dtyperFunction f = .ok w →
      sigBind w.sig args kwargs = .ok bound →
      Wrapper.call w args kwargs = .ok (f.body (applyDefaults w.sig bound)))
    ∧ Wrapper.call getKeysWrapper [Value.vStr "bukket"] [("pid", Value.vInt 3)]
        = .ok (Value.vPair (Value.vStr "bukket")
            (Value.vPair (Value.vStr "keys") (Value.vInt 3))) := by
  constructor
  · intro f w args kwargs bound h1 h2 h3
    exact wrapperCall_forwards f w args kwargs bound h1 h2 h3
  · rfl

/-- Witness for C1: the wrapper of `get_keys` called with
("bukket", pid=3) forwards to the original on the fully defaulted
mapping bucket="bukket", keys="keys", pid=3. -/
theorem claim_C1_witness :
    Wrapper.call getKeysWrapper [Value.vStr "bukket"] [("pid", Value.vInt 3)]
      = .ok (getKeysCmd.body (applyDefaults getKeysWrapper.sig
          [("bucket", Value.vStr "bukket"), ("pid", Value.vInt 3)])) :=
  claim_C1_rebound_wrapper_roundtrip.1 getKeysCmd getKeysWrapper
    [Value.vStr "bukket"] [("pid", Value.vInt 3)]
    [("bucket", Value.vStr "bukket"), ("pid", Value.vInt 3)]
    (by decide) rfl rfl

lemma fix_param_default_eq (p : Param) :
    (fix_param p).default =
      match p.default with
      | none => none
      | some v =>
        if getattrDefault v = Value.ellipsis then none else some (getattrDefault v) := by
  obtain ⟨n, an, k, d⟩ := p
  cases d with
  | none => rfl
  | some v => cases hgv : getattrDefault v <;> simp [fix_param, hgv]

/-- C2: signature normalization acts per parameter as specified: the
default becomes the descriptor inner default when the original default
is a descriptor (and no default at all when the unwrapped default is the
ellipsis sentinel), a non-descriptor default passes through unchanged,
and the kind is forced to keyword-only exactly for OptionInfo
descriptors while all other parameters keep their original kind; names
and annotations are preserved. -/
theorem claim_C2_normalization_per_param :
    ∀ p : Param,
      ((fix_param p).name = p.name ∧ (fix_param p).annot = p.annot)
      ∧ (∀ v, p.default = some v → isDescriptor v = true →
          (fix_param p).default =
            (if getattrDefault v = Value.ellipsis then none else some (getattrDefault v)))
      ∧ (∀ v, p.default = some v → isDescriptor v = false → v ≠ Value.ellipsis →
          (fix_param p).default = some v)
      ∧ (p.default = none → (fix_param p).default = none)
      ∧ (∀ v, p.default = some v → getattrDefault v = Value.ellipsis →
          (fix_param p).default = none)
      ∧ (isOptionInfo p.default = true → (fix_param p).kind = ParamKind.keywordOnly)
      ∧ (isOptionInfo p.default = false → (fix_param p).kind = p.kind) := by
  intro p
  refine ⟨⟨fix_param_name p, fix_param_annot p⟩, ?_, ?_, ?_, ?_, ?_, ?_⟩
  · intro v hv _
    rw [fix_param_default_eq, hv]
  · intro v hv hdesc hne
    rw [fix_param_default_eq, hv]
    have hgv : getattrDefault v = v := by
      cases v <;> simp [isDescriptor] at hdesc ⊢ <;> rfl
    show (if getattrDefault v = Value.ellipsis then none else some (getattrDefault v)) = some v
    rw [hgv, if_neg hne]
  · intro h
    rw [fix_param_default_eq, h]
  · intro v hv he
    rw [fix_param_default_eq, hv]
    show (if getattrDefault v = Value.ellipsis then none else some (getattrDefault v)) = none
    rw [if_pos he]
  · intro h
    rw [fix_param_kind_eq, if_pos h]
  · intro h
    rw [fix_param_kind_eq, if_neg (by simp [h])]

/-- Witness for C2: the pid parameter with default Option(None) gets
default None and kind keyword-only; the bucket parameter with default
Argument(...) loses its default and keeps its positional kind. -/
theorem claim_C2_witness :
    (fix_param ⟨"pid", "Optional[int]", ParamKind.positionalOrKeyword,
        some (Value.optionInfo Value.vNone)⟩).default = some Value.vNone
    ∧ (fix_param ⟨"pid", "Optional[int]", ParamKind.positionalOrKeyword,
        some (Value.optionInfo Value.vNone)⟩).kind = ParamKind.keywordOnly
    ∧ (fix_param ⟨"bucket", "str", ParamKind.positionalOrKeyword,
        some (Value.argumentInfo Value.ellipsis)⟩).default = none
    ∧ (fix_param ⟨"bucket", "str", ParamKind.positionalOrKeyword,
        some (Value.argumentInfo Value.ellipsis)⟩).kind = ParamKind.positionalOrKeyword := by
  refine ⟨?_, ?_, ?_, ?_⟩
  · have h := (claim_C2_normalization_per_param
      ⟨"pid", "Optional[int]", ParamKind.positionalOrKeyword,
        some (Value.optionInfo Value.vNone)⟩).2.1 (Value.optionInfo Value.vNone) rfl rfl
    simpa using h
  · exact (claim_C2_normalization_per_param
      ⟨"pid", "Optional[int]", ParamKind.positionalOrKeyword,
        some (Value.optionInfo Value.vNone)⟩).2.2.2.2.2.1 rfl
  · exact (claim_C2_normalization_per_param
      ⟨"bucket", "str", ParamKind.positionalOrKeyword,
        some (Value.argumentInfo Value.ellipsis)⟩).2.2.2.2.1
      (Value.argumentInfo Value.ellipsis) rfl rfl
  · exact (claim_C2_normalization_per_param
      ⟨"bucket", "str", ParamKind.positionalOrKeyword,
        some (Value.argumentInfo Value.ellipsis)⟩).2.2.2.2.2.2 rfl

/-- C5 counterexample: the binding failure raised by a rebound wrapper
for an unknown keyword is a TypeError (as the test suite expects), not
an error of the ArgumentError class, so the claim as stated is false. -/
theorem claim_C5_counterexample :
    Wrapper.call getKeysWrapper [Value.vStr "bukket"] [("frog", Value.vInt 30)]
      = .error (.typeError "got an unexpected keyword argument frog")
    ∧ Err.isArgumentError (.typeError "got an unexpected keyword argument frog") = false :=
  ⟨rfl, rfl⟩

/-- C5 (amended): a call to a rebound wrapper that supplies an
unexpected keyword, too many positional arguments, or omits a parameter
with no normalized default fails with a TypeError (not ArgumentError)
whose message names the offending parameter or the positional-count
mismatch; the three concrete scenarios of the specification produce the
exact messages shown. -/
theorem claim_C5_amended_binding_failures :
    (∀ (f : Callable) (w : Wrapper) (args : List Value) (kwargs : Env),
      dtyperFunction f = .ok w →
      (hasUnexpectedKw w.sig kwargs || tooManyPos w.sig args
        || omitsRequired w.sig args.length kwargs) = true →
      ∃ msg, Wrapper.call w args kwargs = .error (.typeError msg))
    ∧ Wrapper.call getKeysWrapper [Value.vStr "bukket"] [("frog", Value.vInt 30)]
        = .error (.typeError "got an unexpected keyword argument frog")
    ∧ Wrapper.call getKeysWrapper
        [Value.vStr "bukket", Value.vStr "key", Value.vInt 12, Value.vInt 30] []
        = .error (.typeError "too many positional arguments")
    ∧ Wrapper.call getKeysWrapper [] []
        = .error (.typeError "missing a required argument: bucket") := by
  refine ⟨?_, rfl, rfl, rfl⟩
  intro f w args kwargs _ h
  have hbind : ∃ er, sigBind w.sig args kwargs = .error er := by
    simp only [Bool.or_eq_true] at h
    rcases h with (h | h) | h
    · exact sigBind_fails_unexpected w.sig args kwargs h
    · exact sigBind_fails_tooMany w.sig args kwargs h
    · exact sigBind_fails_missing w.sig args kwargs h
  obtain ⟨er, her⟩ := hbind
  have htype := sigBind_err_isTypeError w.sig args kwargs er her
  cases er with
  | typeError msg => exact ⟨msg, by simp [Wrapper.call, her]⟩
  | valueError msg => simp [Err.isTypeError] at htype
  | argumentError msg => simp [Err.isTypeError] at htype

/-- Witness for C5 (amended): calling the `get_keys` wrapper with no
arguments at all omits the required bucket parameter and fails with a
TypeError. -/
theorem claim_C5_witness :
    ∃ msg, Wrapper.call getKeysWrapper [] [("frog", Value.vInt 30)]
      = .error (.typeError msg) :=
  claim_C5_amended_binding_failures.1 getKeysCmd getKeysWrapper
    [] [("frog", Value.vInt 30)] rfl (by decide)

/-- C6 counterexample: the wrapper returned by the plain rebinding
operation `dtyper.function` carries no `_dtyper_dec` back-reference, so
the claim that every callable produced by the Callable Rebinder carries
the marker is false. -/
theorem claim_C6_counterexample :
    dtyperFunction getKeysCmd = .ok getKeysWrapper
    ∧ getKeysWrapper.dtyperDec = none :=
  ⟨rfl, rfl⟩

/-- C6 (amended): only the `Typer.command` path installs the
back-reference: a wrapper produced through `dtyper.Typer.command`
carries `_dtyper_dec` pointing at the pre-rebind original (which the
underlying typer decorator returned unchanged), while the bare
`function` rebinder attaches no marker. -/
theorem claim_C6_amended_marker_on_typer_command :
    ∀ (f : Callable) (w w2 : Wrapper),
      (typerCommand f = .ok w → w.dtyperDec = some f ∧ w.original = f)
      ∧ (dtyperFunction f = .ok w2 → w2.dtyperDec = none) := by
  intro f w w2
  constructor
  · intro h
    unfold typerCommand at h
    split at h
    · simp at h
    · rename_i w0 hw0
      unfold dtyperFunction at hw0
      split at hw0
      · simp at hw0
      · rename_i s hfix
        simp only [Except.ok.injEq] at hw0 h
        subst hw0
        rw [← h]
        exact ⟨rfl, rfl⟩
  · intro h
    unfold dtyperFunction at h
    split at h
    · simp at h
    · simp only [Except.ok.injEq] at h
      rw [← h]

/-- Witness for C6 (amended): the `Typer.command` wrapper of `get_keys`
exposes the original through `_dtyper_dec`; the plain `function` wrapper
does not. -/
theorem claim_C6_witness :
    (getKeysTyperWrapper.dtyperDec = some getKeysCmd
      ∧ getKeysTyperWrapper.original = getKeysCmd)
    ∧ getKeysWrapper.dtyperDec = none :=
  ⟨(claim_C6_amended_marker_on_typer_command getKeysCmd getKeysTyperWrapper getKeysWrapper).1 rfl,
   (claim_C6_amended_marker_on_typer_command getKeysCmd getKeysTyperWrapper getKeysWrapper).2 rfl⟩

/-- C9: `dtyper.function` never mutates the original callable: running
it over the attribute store leaves every pre-existing function object
(in particular the original at `fid`) exactly as it was, allocates the
wrapper as a fresh object, and places the corrected signature (and the
copied metadata) only on that fresh wrapper object. -/
theorem claim_C9_function_never_mutates :
    ∀ (store : List FnObj) (fid : Nat) (store2 : List FnObj) (wid : Nat),
      functionS store fid = .ok (store2, wid) →
      (∀ j, j < store.length → store2[j]? = store[j]?)
      ∧ wid = store.length
      ∧ ∃ fsig, fixedSignature (sigOfObj (store.getD fid defFnObj)) = .ok fsig
          ∧ store2[wid]? = some
              { name := (store.getD fid defFnObj).name, declSig := [],
                sigAttr := some fsig,
                dtyperDec := (store.getD fid defFnObj).dtyperDec,
                wrappedRef := some fid } := by
  intro store fid store2 wid h
  unfold functionS at h
  dsimp only at h
  split at h
  · simp at h
  · rename_i s hfix
    simp only [Except.ok.injEq, Prod.mk.injEq] at h
    obtain ⟨hstore, hwid⟩ := h
    refine ⟨?_, hwid.symm, s, hfix, ?_⟩
    · intro j hj
      rw [← hstore]
      exact List.getElem?_append_left hj
    · rw [← hstore, ← hwid]
      exact List.getElem?_concat_length store _

/-- Witness for C9: rebinding the `get_keys` object in a one-object
store leaves that object untouched and allocates the wrapper at the
fresh index 1. -/
theorem claim_C9_witness :
    (([getKeysObj, getKeysWrapObj] : List FnObj)[0]? = ([getKeysObj] : List FnObj)[0]?)
    ∧ (1 : Nat) = ([getKeysObj] : List FnObj).length :=
  ⟨(claim_C9_function_never_mutates [getKeysObj] 0 [getKeysObj, getKeysWrapObj] 1 rfl).1
      0 (by decide),
   (claim_C9_function_never_mutates [getKeysObj] 0 [getKeysObj, getKeysWrapObj] 1 rfl).2.1⟩

/-- C3: when record synthesis receives a wrapper carrying the
`_dtyper_dec` back-reference (as `Typer.command` wrappers do), the
pre-rebind original is substituted before signature inspection, the
synthesized record type carries that resolved original (not the rebound
wrapper) as its static `typer_command`, and synthesizing from the
wrapper is the same as synthesizing from the original directly. -/
theorem claim_C3_guard_resolves_original :
    ∀ (f : Callable) (w : Wrapper) (base : Option String) (foc : FnOrClass),
      typerCommand f = .ok w →
      resolveDec (DCInput.wr w) = DCInput.fn f
      ∧ dtyperDataclass (DCInput.wr w) base = dtyperDataclass (DCInput.fn f) base
      ∧ synthRecord (DCInput.wr w) base foc = synthRecord (DCInput.fn f) base foc
      ∧ (∀ r, synthRecord (DCInput.wr w) base foc = .ok r → r.typer_cmd = DCInput.fn f) := by
  intro f w base foc hw
  unfold typerCommand at hw
  split at hw
  · simp at hw
  · rename_i w0 hw0
    simp only [Except.ok.injEq] at hw
    have hdec : w.dtyperDec = some f := by rw [← hw]
    have hres : resolveDec (DCInput.wr w) = DCInput.fn f := by
      show (match w.dtyperDec with
        | some g => DCInput.fn g
        | none => DCInput.wr w) = DCInput.fn f
      rw [hdec]
    refine ⟨hres, ?_, ?_, ?_⟩
    · unfold dtyperDataclass
      rw [hres]
      rfl
    · unfold synthRecord dtyperDataclass
      rw [hres]
      rfl
    · intro r hr
      unfold synthRecord dtyperDataclass at hr
      rw [hres] at hr
      dsimp only at hr
      split at hr
      · simp at hr
      · rename_i m hm
        split at hm
        · simp at hm
        · simp only [Except.ok.injEq] at hm
          unfold dataclass_maker at hr
          dsimp only at hr
          split at hr
          · simp at hr
          · simp only [Except.ok.injEq] at hr
            rw [← hr]
            show m.typer_cmd = DCInput.fn f
            rw [← hm]

/-- Witness for C3: for the `Typer.command` wrapper of `get_keys`, the
guard resolves to `get_keys` itself and record synthesis from the
wrapper equals record synthesis from the original. -/
theorem claim_C3_witness :
    resolveDec (DCInput.wr getKeysTyperWrapper) = DCInput.fn getKeysCmd
    ∧ synthRecord (DCInput.wr getKeysTyperWrapper) none (FnOrClass.fn "c_function" cFnBody)
        = synthRecord (DCInput.fn getKeysCmd) none (FnOrClass.fn "c_function" cFnBody) :=
  ⟨(claim_C3_guard_resolves_original getKeysCmd getKeysTyperWrapper none
      (FnOrClass.fn "c_function" cFnBody) rfl).1,
   (claim_C3_guard_resolves_original getKeysCmd getKeysTyperWrapper none
      (FnOrClass.fn "c_function" cFnBody) rfl).2.2.1⟩

/-- C4 counterexample: for the `less_simple_command` field list, whose
required keyword-only pod follows defaulted fields, record synthesis
fails at decoration time with a TypeError raised by the dataclass field
scan, not with an error of the ValueError class as the claim states. -/
theorem claim_C4_counterexample :
    hasReqAfterOpt (normFields (DCInput.fn lessSimpleCmd)) = true
    ∧ synthRecord (DCInput.fn lessSimpleCmd) none (FnOrClass.cls "LessSimple")
        = .error (.typeError "non-default argument pod follows default argument")
    ∧ Err.isValueError
        (.typeError "non-default argument pod follows default argument") = false :=
  ⟨rfl, rfl, rfl⟩

/-- C4 (amended): whenever the normalized field list has a field with no
default after a field with a concrete default, record synthesis fails at
decoration time - the record type is never produced, so the failure can
never be deferred to construction time - with a ValueError (from
signature validation, when the required field is positional) or a
TypeError (from the dataclass field scan, when it is keyword-only). -/
theorem claim_C4_amended_fail_fast :
    ∀ (tc : DCInput) (base : Option String) (foc : FnOrClass),
      hasReqAfterOpt (normFields tc) = true →
      ∃ e, synthRecord tc base foc = .error e
        ∧ (e.isValueError || e.isTypeError) = true := by
  intro tc base foc h
  cases hfix : fixedSignature (sigOfD (resolveDec tc)) with
  | error e =>
    refine ⟨e, ?_, ?_⟩
    · unfold synthRecord dtyperDataclass
      dsimp only
      rw [hfix]
    · rw [mkSignature_err_isValueError _ _ hfix]
      rfl
  | ok fs =>
    have hfs : fs = (sigOfD (resolveDec tc)).map fix_param := mkSignature_ok_eq _ _ hfix
    have hfields : fs.map param_to_field_desc = normFields tc := by
      rw [hfs]
      rfl
    obtain ⟨msg, hmsg⟩ := checkFields_violation (normFields tc) false h
    refine ⟨Err.typeError msg, ?_, rfl⟩
    unfold synthRecord dtyperDataclass
    dsimp only
    rw [hfix]
    show dataclass_maker
      { cls_name := nameOfD (resolveDec tc), fields := fs.map param_to_field_desc,
        bases := base.toList, typer_cmd := resolveDec tc } foc
      = .error (Err.typeError msg)
    unfold dataclass_maker
    dsimp only
    rw [hfields, hmsg]

/-- Witness for C4 (amended): record synthesis from
`less_simple_command` fails at decoration time with a TypeError. -/
theorem claim_C4_witness :
    ∃ e, synthRecord (DCInput.fn lessSimpleCmd) none (FnOrClass.fn "body" cFnBody)
      = .error e ∧ (e.isValueError || e.isTypeError) = true :=
  claim_C4_amended_fail_fast (DCInput.fn lessSimpleCmd) none
    (FnOrClass.fn "body" cFnBody) rfl

/-- C7: applying the decorator returned by `dtyper.dataclass` to a class
appends the user class to the base list after any explicitly requested
base and installs no `__call__`; applying it to a plain function installs
that function as the `__call__` member of the synthesized type - so
invoking an instance passes the instance to it as first argument - and
adds no extra base. -/
theorem claim_C7_class_base_and_function_body :
    ∀ (tc : DCInput) (base : Option String) (m : DataclassMaker),
      dtyperDataclass tc base = .ok m →
      (∀ (c : String) (r : RecordType), dataclass_maker m (FnOrClass.cls c) = .ok r →
        r.bases = base.toList ++ [c] ∧ r.callBody = none)
      ∧ (∀ (gname : String) (gbody : Env → Value) (r : RecordType),
          dataclass_maker m (FnOrClass.fn gname gbody) = .ok r →
          r.bases = base.toList ∧ r.callBody = some (gname, gbody)
          ∧ ∀ inst : Env, invokeRecord r inst = some (gbody inst)) := by
  intro tc base m hm
  unfold dtyperDataclass at hm
  dsimp only at hm
  split at hm
  · simp at hm
  · simp only [Except.ok.injEq] at hm
    have hbases : m.bases = base.toList := by rw [← hm]
    constructor
    · intro c r hr
      unfold dataclass_maker at hr
      dsimp only at hr
      split at hr
      · simp at hr
      · simp only [Except.ok.injEq] at hr
        rw [← hr]
        exact ⟨by rw [hbases], rfl⟩
    · intro gname gbody r hr
      unfold dataclass_maker at hr
      dsimp only at hr
      split at hr
      · simp at hr
      · simp only [Except.ok.injEq] at hr
        rw [← hr]
        exact ⟨by rw [hbases], rfl, fun inst => rfl⟩

/-- Witness for C7: synthesizing from `get_keys` with a decorated class
appends the class after no explicit base; synthesizing with the
`c_function` body installs it as `__call__` and invoking an instance
runs it on the instance. -/
theorem claim_C7_witness :
    (RecordType.bases
        { cls_name := "get_keys", fields := getKeysFields, bases := ["ACommand"],
          callBody := none, typer_cmd := DCInput.fn getKeysCmd }
      = (none : Option String).toList ++ ["ACommand"])
    ∧ getKeysRecordFn.bases = (none : Option String).toList
    ∧ invokeRecord getKeysRecordFn [("bucket", Value.vStr "bukket")]
        = some (cFnBody [("bucket", Value.vStr "bukket")]) :=
  ⟨((claim_C7_class_base_and_function_body (DCInput.fn getKeysCmd) none
      ⟨"get_keys", getKeysFields, [], DCInput.fn getKeysCmd⟩ rfl).1 "ACommand"
      { cls_name := "get_keys", fields := getKeysFields, bases := ["ACommand"],
        callBody := none, typer_cmd := DCInput.fn getKeysCmd } rfl).1,
   ((claim_C7_class_base_and_function_body (DCInput.fn getKeysCmd) none
      ⟨"get_keys", getKeysFields, [], DCInput.fn getKeysCmd⟩ rfl).2 "c_function" cFnBody
      getKeysRecordFn rfl).1,
   ((claim_C7_class_base_and_function_body (DCInput.fn getKeysCmd) none
      ⟨"get_keys", getKeysFields, [], DCInput.fn getKeysCmd⟩ rfl).2 "c_function" cFnBody
      getKeysRecordFn rfl).2.2 [("bucket", Value.vStr "bukket")]⟩

/-- C8: constructing an instance of a synthesized record supplying only
some of the fields (positionally or by keyword) assigns to every
remaining field its declared default from the normalized field list;
concretely, constructing the bucket / keys / pid record with only
bucket="bukket" yields keys="keys" and pid=None. -/
theorem claim_C8_omitted_fields_get_defaults :
    (∀ (r : RecordType) (args : List Value) (kwargs : Env) (inst : Env),
      (r.fields.map FieldDesc.name).Nodup →
      constructRecord r args kwargs = .ok inst →
      ∀ (F1 : List FieldDesc) (fd : FieldDesc) (F2 : List FieldDesc),
        r.fields = F1 ++ fd :: F2 →
        args.length ≤ F1.length →
        fd.name ∉ kwargs.map Prod.fst →
        lookupVal inst fd.name = fd.default)
    ∧ constructRecord getKeysRecordFn [] [("bucket", Value.vStr "bukket")]
        = .ok [("bucket", Value.vStr "bukket"), ("keys", Value.vStr "keys"),
               ("pid", Value.vNone)] := by
  constructor
  · intro r args kwargs inst hnd hcr F1 fd F2 hsplit hlen hkw
    set sig := fieldsToSig r.fields with hsig
    have hndsig : (sig.map Param.name).Nodup := by
      rw [hsig, fieldsToSig_names]
      exact hnd
    unfold constructRecord at hcr
    rw [← hsig] at hcr
    split at hcr
    · simp at hcr
    · rename_i bound hsb
      simp only [Except.ok.injEq] at hcr
      have hfdP : (⟨fd.name, fd.annot, ParamKind.positionalOrKeyword, fd.default⟩ : Param) ∈ sig := by
        rw [hsig]
        apply List.mem_map_of_mem (fun g : FieldDesc =>
          (⟨g.name, g.annot, ParamKind.positionalOrKeyword, g.default⟩ : Param))
        rw [hsplit]
        exact List.mem_append_right _ (List.mem_cons_self _ _)
      have hnotF1 : fd.name ∉ F1.map FieldDesc.name := by
        rw [hsplit, List.map_append] at hnd
        rcases List.nodup_append.mp hnd with ⟨_, _, hdisj⟩
        intro hc
        exact hdisj hc (by simp)
      have hnb : lookupVal bound fd.name = none := by
        rw [lookupVal_eq_none_iff]
        unfold sigBind at hsb
        split at hsb
        · simp at hsb
        · rename_i envP rem hbp
          split at hsb
          · simp at hsb
          · rename_i envK hbk
            simp only [Except.ok.injEq] at hsb
            rw [← hsb, List.map_append]
            intro hc
            rcases List.mem_append.mp hc with hc | hc
            · obtain ⟨P0, hps, hal, hplen⟩ := bindPos_shape args sig _ envP rem hbp
              have hfst : envP.map Prod.fst = P0.map Param.name :=
                forall₂_fst_eq P0 envP (hal.imp fun p e he => he.1)
              rw [hfst] at hc
              have hP0 : P0 = sig.take P0.length := by
                rw [hps]
                exact (List.take_left P0 rem).symm
              have hsig2 : sig = fieldsToSig F1 ++ fieldsToSig (fd :: F2) := by
                rw [hsig, hsplit]
                simp [fieldsToSig]
              have hlen2 : P0.length ≤ (fieldsToSig F1).length := by
                have hpa : P0.length = args.length := by
                  rw [← hplen]
                  exact hal.length_eq
                rw [hpa]
                simpa [fieldsToSig] using hlen
              have htake : sig.take P0.length = (fieldsToSig F1).take P0.length := by
                rw [hsig2]
                exact List.take_append_of_le_length hlen2
              have hP0pre : P0 = (fieldsToSig F1).take P0.length := hP0.trans htake
              rw [hP0pre] at hc
              obtain ⟨p2, hp2, hp2name⟩ := List.mem_map.mp hc
              have hp2F1 : p2 ∈ fieldsToSig F1 := List.mem_of_mem_take hp2
              have : fd.name ∈ (fieldsToSig F1).map Param.name := by
                rw [← hp2name]
                exact List.mem_map_of_mem Param.name hp2F1
              rw [fieldsToSig_names] at this
              exact hnotF1 this
            · obtain ⟨x, hx, hxf⟩ := List.mem_map.mp hc
              have hxkw : x.1 ∈ kwargs.map Prod.fst :=
                bindKw_names_sub rem kwargs envK hbk x hx
              rw [hxf] at hxkw
              exact hkw hxkw
      rw [← hcr]
      exact lookupVal_applyDefaults_of_not_bound sig bound _ hfdP hndsig hnb
  · rfl

/-- Witness for C8: constructing the `get_keys` record with only
bucket="bukket" assigns keys its default "keys" and pid its default
None. -/
theorem claim_C8_witness :
    lookupVal [("bucket", Value.vStr "bukket"), ("keys", Value.vStr "keys"),
        ("pid", Value.vNone)] "keys" = some (Value.vStr "keys")
    ∧ lookupVal [("bucket", Value.vStr "bukket"), ("keys", Value.vStr "keys"),
        ("pid", Value.vNone)] "pid" = some Value.vNone :=
  ⟨claim_C8_omitted_fields_get_defaults.1 getKeysRecordFn [] [("bucket", Value.vStr "bukket")]
      [("bucket", Value.vStr "bukket"), ("keys", Value.vStr "keys"), ("pid", Value.vNone)]
      (by decide) rfl [⟨"bucket", "str", none⟩] ⟨"keys", "str", some (Value.vStr "keys")⟩
      [⟨"pid", "Optional[int]", some Value.vNone⟩] rfl (by decide) (by decide),
   claim_C8_omitted_fields_get_defaults.1 getKeysRecordFn [] [("bucket", Value.vStr "bukket")]
      [("bucket", Value.vStr "bukket"), ("keys", Value.vStr "keys"), ("pid", Value.vNone)]
      (by decide) rfl [⟨"bucket", "str", none⟩, ⟨"keys", "str", some (Value.vStr "keys")⟩]
      ⟨"pid", "Optional[int]", some Value.vNone⟩ [] rfl (by decide) (by decide)⟩

/-- C10: for a callable whose unwrapped defaults are plain (no nested
descriptor, no ellipsis behind the descriptor), normalization is a fixed
point across rebinding: the normalized signature of the wrapper that
`function` returns (whose published `__signature__` is the corrected
signature) equals the normalized signature of the original, so deriving
a record from the wrapper - which carries no `_dtyper_dec`
back-reference - produces the same field list as deriving it from the
original directly. -/
theorem claim_C10_normalization_fixed_point :
    ∀ (f : Callable) (w : Wrapper),
      (∀ p ∈ f.sig, plainDefault p.default = true) →
      dtyperFunction f = .ok w →
      fixedSignature w.sig = fixedSignature f.sig
      ∧ ∀ base : Option String, ∃ m1 m2,
          dtyperDataclass (DCInput.wr w) base = .ok m1
          ∧ dtyperDataclass (DCInput.fn f) base = .ok m2
          ∧ m1.fields = m2.fields ∧ m1.cls_name = m2.cls_name := by
  intro f w hplain hw
  unfold dtyperFunction at hw
  split at hw
  · simp at hw
  · rename_i s hfix
    simp only [Except.ok.injEq] at hw
    have hidem : fixedSignature s = .ok s :=
      fixedSignature_idem f.sig s (fun p hp => plainDefault_spec _ (hplain p hp)) hfix
    subst hw
    constructor
    · show fixedSignature s = fixedSignature f.sig
      rw [hidem, hfix]
    · intro base
      refine ⟨{ cls_name := f.name, fields := s.map param_to_field_desc,
                bases := base.toList, typer_cmd := DCInput.wr ⟨f, s, f.name, none⟩ },
              { cls_name := f.name, fields := s.map param_to_field_desc,
                bases := base.toList, typer_cmd := DCInput.fn f }, ?_, ?_, rfl, rfl⟩
      · unfold dtyperDataclass
        dsimp only
        have h1 : fixedSignature
            (sigOfD (resolveDec (DCInput.wr ⟨f, s, f.name, none⟩))) = .ok s := by
          show fixedSignature s = .ok s
          exact hidem
        rw [h1]
        rfl
      · unfold dtyperDataclass
        dsimp only
        have h2 : fixedSignature (sigOfD (resolveDec (DCInput.fn f))) = .ok s := hfix
        rw [h2]
        rfl

/-- Witness for C10: for the plainly defaulted README command, the
wrapper and the original normalize to the same signature and yield the
same field list. -/
theorem claim_C10_witness :
    fixedSignature plainKeysWrapper.sig = fixedSignature plainKeysCmd.sig
    ∧ ∃ m1 m2, dtyperDataclass (DCInput.wr plainKeysWrapper) none = .ok m1
        ∧ dtyperDataclass (DCInput.fn plainKeysCmd) none = .ok m2
        ∧ m1.fields = m2.fields ∧ m1.cls_name = m2.cls_name :=
  ⟨(claim_C10_normalization_fixed_point plainKeysCmd plainKeysWrapper (by decide) rfl).1,
   (claim_C10_normalization_fixed_point plainKeysCmd plainKeysWrapper (by decide) rfl).2 none⟩
